import Mathlib

/-!
# xsh: a line-oriented command shell (`shell.c`)

Shallow embedding of the parsing and dispatch pipeline of `shell.c`:
`substitute_env_vars`, the `strtok` tokenizer, the directive extraction of
`parse_and_execute`, the built-ins and `execute_command`.

Modelling conventions.
* A C string is the list of its characters before the terminating NUL
  (`CStr`); every element stands for one `char`.
* A pointer into a string is the pair (text before it, text from it on).
* Writing past the end of a fixed-size array is undefined behaviour; a
  function that can do so returns `Option`, `none` standing for the
  out-of-bounds write.
* Calls into the operating system are recorded as `Event`s in program
  order; their results are supplied by an `OS` record.
-/

namespace Xsh

/-! ## Constants and basic types -/

/-- Contents of a NUL-terminated C string. -/
abbrev CStr := List Char

/-- `#define MAX_INPUT 1024` -/
def MAX_INPUT : Nat := 1024

/-- `#define MAX_ARGS 64` -/
def MAX_ARGS : Nat := 64

/-- Size of `char var_name[128]` in `substitute_env_vars`. -/
def VAR_NAME_SIZE : Nat := 128

def STDIN_FILENO : Int := 0

def STDOUT_FILENO : Int := 1

/-- The process environment: the `name=value` entries of `environ`, in order. -/
abbrev Env := List (CStr × CStr)

/-- Library call `getenv`: value of the first entry named `name`, `none` for NULL. -/
def getenv : Env → CStr → Option CStr
  | [], _ => none
  | (n, v) :: rest, name => if n = name then some v else getenv rest name

/-- Library call `_putenv_s(name, value)`: an empty value removes the variable,
any other value replaces it. -/
def putenv_s (env : Env) (name value : CStr) : Env :=
  if value = [] then env.filter (fun e => decide (e.1 ≠ name))
  else (name, value) :: env.filter (fun e => decide (e.1 ≠ name))

/-- Mode argument of `_spawnvp`. -/
inductive SpawnMode where
  | P_WAIT
  | P_NOWAIT
  deriving DecidableEq, Repr

/-- Observable actions of the interpreter, in program order. -/
inductive Event where
  | stdout (text : CStr)
  | stderr (text : CStr)
  | perror (tag : CStr)
  | open_read (name : CStr) (fd : Int)
  | open_write (name : CStr) (fd : Int)
  | dup2 (fd target : Int)
  | close (fd : Int)
  | chdir (dir : CStr) (ret : Int)
  | putenv (name value : CStr)
  | spawn (mode : SpawnMode) (prog : CStr) (argv : List CStr) (pid : Int)
  deriving DecidableEq, Repr

/-- Results of the operating-system calls made while one line is processed. -/
structure OS where
  /-- `_open(name, _O_RDONLY)` -/
  open_read : CStr → Int
  /-- `_open(name, _O_WRONLY | _O_CREAT | _O_TRUNC, S_IRUSR | S_IWUSR)` -/
  open_write : CStr → Int
  /-- `_chdir(dir)` -/
  chdir : CStr → Int
  /-- `_getcwd(cwd, sizeof(cwd))`: the directory, or `none` for NULL -/
  getcwd : Option CStr
  /-- `_spawnvp(mode, prog, argv)` -/
  spawnvp : SpawnMode → CStr → List CStr → Int

/-- Interpreter state after a line: the environment and what was done. -/
structure Outcome where
  env : Env
  events : List Event
  deriving DecidableEq

/-! ## String primitives -/

/-- Library call `strchr(s, c)`: the text before the first `c` and the text
after it, `none` when `c` does not occur. -/
def strchr : CStr → Char → Option (CStr × CStr)
  | [], _ => none
  | x :: xs, c =>
    if x = c then some ([], xs)
    else (strchr xs c).map (fun p => (x :: p.1, p.2))

/-- Test `isalnum(*end) || *end == '_'` of the name scan. -/
def is_name_char (c : Char) : Bool := c.isAlphanum || c == '_'

/-- The delimiter set `" \t\n"` passed to every `strtok` call. -/
def delims : CStr := [' ', '\t', '\n']

def is_delim (c : Char) : Bool := delims.contains c

/-- Library call `strtok` at the position `s`: skips leading delimiters; at
the end of the string it returns NULL, otherwise the token (the run of
non-delimiters) and the saved position, just past the delimiter that was
overwritten with NUL. -/
def strtok (s : CStr) : Option (CStr × CStr) :=
  match s.dropWhile is_delim with
  | [] => none
  | c :: cs =>
    some ((c :: cs).takeWhile (fun x => !is_delim x),
          ((c :: cs).dropWhile (fun x => !is_delim x)).tail)

/-- The loop `while (token) { args[i++] = token; token = strtok(NULL, ..) }`:
the tokens in the order they are stored. -/
def strtok_loop : Nat → CStr → List CStr
  | 0, _ => []
  | fuel + 1, s =>
    match strtok s with
    | none => []
    | some (token, rest) => token :: strtok_loop fuel rest

/-- Lines 196–201: every token of `input`; a string of length `n` yields at
most `n` tokens, so `n + 1` iterations reach the NULL. -/
def tokenize (input : CStr) : List CStr := strtok_loop (input.length + 1) input

/-- Storing `tokens` and the NULL sentinel in `char *args[MAX_ARGS]`:
`none` when an index past `MAX_ARGS - 1` is written. -/
def store_args (tokens : List CStr) : Option (List CStr) :=
  if tokens.length + 1 ≤ MAX_ARGS then some tokens else none

/-! ## Variable expansion -/

/-- `strcat`/`strncat` onto a string held in an array of `cap` bytes. -/
def append_into (cap : Nat) (buf add : CStr) : Option CStr :=
  if buf.length + add.length < cap then some (buf ++ add) else none

/-- The `while ((start = strchr(command, '$')))` loop of `substitute_env_vars`.
State: the local `buffer`, the number of characters `command` has advanced,
and the text `command` points to. Every iteration consumes a `$`, so the loop
ends within `command.length + 1` tests; `fuel` counts them, and
`expand_buffer` supplies that many (`subst_loop_fuel`). -/
def subst_loop (env : Env) : Nat → CStr → Nat → CStr → Option (CStr × Nat × CStr)
  | 0, _, _, _ => none
  | fuel + 1, buffer, off, command =>
    match strchr command '$' with
    | none => some (buffer, off, command)
    | some (pre, after) =>
      let name := after.takeWhile is_name_char
      match append_into MAX_INPUT buffer pre with
      | none => none
      | some b1 =>
        if name.length < VAR_NAME_SIZE then
          match append_into MAX_INPUT b1 ((getenv env name).getD []) with
          | none => none
          | some b2 =>
            subst_loop env fuel b2 (off + (pre.length + 1 + name.length))
              (after.dropWhile is_name_char)
        else none

/-- Lines 92–120 of `substitute_env_vars`: the local `buffer` after
`strcat(buffer, command)` and the offset of `command` in the caller's string. -/
def expand_buffer (env : Env) (command : CStr) : Option (CStr × Nat) :=
  match subst_loop env (command.length + 1) [] 0 command with
  | none => none
  | some (buffer, off, rest) =>
    (append_into MAX_INPUT buffer rest).map (fun b => (b, off))

/-- The function `substitute_env_vars(command)`: the caller's string after the
call. The final `strcpy(command, buffer)` writes at the advanced `command`,
so the first `off` characters of the caller's string stay in place. The
caller's array is the `MAX_INPUT`-byte `buffer` of `handle_echo`, the only
call site. -/
def substitute_env_vars (env : Env) (command : CStr) : Option CStr :=
  match expand_buffer env command with
  | none => none
  | some (b, off) =>
    if off + b.length < MAX_INPUT then some (command.take off ++ b) else none

/-! ## Built-ins -/

def handle_cd (os : OS) (args : List CStr) : List Event :=
  match args with
  | _ :: dir :: _ =>
    if os.chdir dir ≠ 0 then [Event.chdir dir (os.chdir dir), Event.perror "cd".toList]
    else [Event.chdir dir (os.chdir dir)]
  | _ => [Event.stderr "cd: expected argument\n".toList]

def handle_pwd (os : OS) : List Event :=
  match os.getcwd with
  | some cwd => [Event.stdout (cwd ++ ['\n'])]
  | none => [Event.perror "pwd".toList]

def handle_set (env : Env) (args : List CStr) : Env × List Event :=
  match args with
  | _ :: name :: value :: _ => (putenv_s env name value, [Event.putenv name value])
  | _ => (env, [Event.stderr "set: expected variable and value\n".toList])

def handle_unset (env : Env) (args : List CStr) : Env × List Event :=
  match args with
  | _ :: name :: _ => (putenv_s env name [], [Event.putenv name []])
  | _ => (env, [Event.stderr "unset: expected variable\n".toList])

/-- The `for` loop of `handle_echo` from `index` on. -/
def echo_loop (env : Env) : Nat → List CStr → Option (List Event)
  | _, [] => some []
  | index, arg :: rest =>
    let sep := if index > 1 then [Event.stdout [' ']] else []
    let shown :=
      if arg.length < MAX_INPUT then
        (substitute_env_vars env arg).map (fun buffer => [Event.stdout buffer])
      else some [Event.stderr "Error: argument too long\n".toList]
    match shown with
    | none => none
    | some out =>
      match echo_loop env (index + 1) rest with
      | none => none
      | some more => some (sep ++ out ++ more)

def handle_echo (env : Env) (args : List CStr) : Option (List Event) :=
  (echo_loop env 1 (args.drop 1)).map (fun evs => evs ++ [Event.stdout ['\n']])

/-! ## External commands -/

def execute_command (os : OS) (args : List CStr) (bg : Bool)
    (input_fd output_fd : Int) : List Event :=
  let mode := if bg then SpawnMode.P_NOWAIT else SpawnMode.P_WAIT
  let pid := os.spawnvp mode (args.headD []) args
  (if input_fd ≠ STDIN_FILENO then
      [Event.dup2 input_fd STDIN_FILENO, Event.close input_fd] else [])
  ++ (if output_fd ≠ STDOUT_FILENO then
      [Event.dup2 output_fd STDOUT_FILENO, Event.close output_fd] else [])
  ++ [Event.spawn mode (args.headD []) args pid]
  ++ (if pid = -1 then [Event.perror "spawnvp".toList] else [])

/-! ## Parsing and dispatch -/

/-- Message of line 173. -/
def no_input_file : CStr := "Syntax error: no input file specified\n".toList

/-- Message of line 191. -/
def no_output_file : CStr := "Syntax error: no output file specified\n".toList

/-- Lines 155–159: the background flag and the line cut at the first `&`. -/
def cut_background (input : CStr) : Bool × CStr :=
  match strchr input '&' with
  | some (pre, _) => (true, pre)
  | none => (false, input)

/-- Result of one redirection clause: the line is abandoned, or it goes on
with the remaining text, the descriptor and the events so far. -/
inductive Redirect where
  | abort (events : List Event)
  | go (input : CStr) (fd : Int) (events : List Event)
  deriving DecidableEq

/-- Lines 161–176. -/
def redirect_input (os : OS) (input : CStr) : Redirect :=
  match strchr input '<' with
  | none => Redirect.go input STDIN_FILENO []
  | some (pre, after) =>
    match strtok after with
    | some (infile, _) =>
      if os.open_read infile = -1 then
        Redirect.abort [Event.open_read infile (os.open_read infile), Event.perror "open".toList]
      else Redirect.go pre (os.open_read infile) [Event.open_read infile (os.open_read infile)]
    | none => Redirect.abort [Event.stderr no_input_file]

/-- Lines 178–194. -/
def redirect_output (os : OS) (input : CStr) : Redirect :=
  match strchr input '>' with
  | none => Redirect.go input STDOUT_FILENO []
  | some (pre, after) =>
    match strtok after with
    | some (outfile, _) =>
      if os.open_write outfile = -1 then
        Redirect.abort [Event.open_write outfile (os.open_write outfile), Event.perror "open".toList]
      else Redirect.go pre (os.open_write outfile) [Event.open_write outfile (os.open_write outfile)]
    | none => Redirect.abort [Event.stderr no_output_file]

/-- What lines 151–201 of `parse_and_execute` compute. -/
inductive Parsed where
  | abort (events : List Event)
  | command (bg : Bool) (input_fd output_fd : Int) (tokens : List CStr) (events : List Event)
  deriving DecidableEq

/-- Lines 151–201 of `parse_and_execute`: directive extraction and the token
sequence produced by the `strtok` loop. -/
def parse (os : OS) (input : CStr) : Parsed :=
  match redirect_input os (cut_background input).2 with
  | Redirect.abort evs => Parsed.abort evs
  | Redirect.go line2 input_fd evs1 =>
    match redirect_output os line2 with
    | Redirect.abort evs => Parsed.abort (evs1 ++ evs)
    | Redirect.go line3 output_fd evs2 =>
      Parsed.command (cut_background input).1 input_fd output_fd (tokenize line3) (evs1 ++ evs2)

/-- Lines 207–219: the `strcmp` chain on `args[0]`. -/
def dispatch (os : OS) (env : Env) (args : List CStr) (bg : Bool)
    (input_fd output_fd : Int) : Option (Env × List Event) :=
  if args.headD [] = "cd".toList then some (env, handle_cd os args)
  else if args.headD [] = "pwd".toList then some (env, handle_pwd os)
  else if args.headD [] = "set".toList then some (handle_set env args)
  else if args.headD [] = "unset".toList then some (handle_unset env args)
  else if args.headD [] = "echo".toList then (handle_echo env args).map (fun evs => (env, evs))
  else some (env, execute_command os args bg input_fd output_fd)

/-- Lines 221–224. -/
def close_redirections (input_fd output_fd : Int) : List Event :=
  (if input_fd ≠ STDIN_FILENO then [Event.close input_fd] else [])
  ++ (if output_fd ≠ STDOUT_FILENO then [Event.close output_fd] else [])

/-- Lines 202–224 of `parse_and_execute`: storing the tokens in `args`, the
blank-line test, the dispatch and the closing of the redirections. -/
def execute_parsed (os : OS) (env : Env) : Parsed → Option Outcome
  | Parsed.abort evs => some ⟨env, evs⟩
  | Parsed.command bg input_fd output_fd tokens evs =>
    match store_args tokens with
    | none => none
    | some [] => some ⟨env, evs⟩
    | some (cmd :: rest) =>
      match dispatch os env (cmd :: rest) bg input_fd output_fd with
      | none => none
      | some (env1, evs1) =>
        some ⟨env1, evs ++ evs1 ++ close_redirections input_fd output_fd⟩

/-- The function `parse_and_execute(input)`. -/
def parse_and_execute (os : OS) (env : Env) (input : CStr) : Option Outcome :=
  execute_parsed os env (parse os input)

/-! ## Observations on event traces -/

/-- Everything written to standard output, concatenated. -/
def stdout_text : List Event → CStr
  | [] => []
  | Event.stdout t :: rest => t ++ stdout_text rest
  | _ :: rest => stdout_text rest

def Event.is_spawn : Event → Bool
  | Event.spawn _ _ _ _ => true
  | _ => false

/-- Events that only a built-in produces (`cd`, `pwd`, `set`, `unset`, `echo`). -/
def Event.is_builtin : Event → Bool
  | Event.stdout _ => true
  | Event.chdir _ _ => true
  | Event.putenv _ _ => true
  | _ => false

/-- An OS in which nothing can be opened, entered or started. -/
def bare_os : OS :=
  { open_read := fun _ => -1, open_write := fun _ => -1, chdir := fun _ => -1,
    getcwd := none, spawnvp := fun _ _ _ => -1 }

/-- An OS in which every call succeeds. -/
def easy_os : OS :=
  { open_read := fun _ => 3, open_write := fun _ => 4, chdir := fun _ => 0,
    getcwd := some ['/'], spawnvp := fun _ _ _ => 100 }

/-! ## Words and separators -/

/-- A line written out as its words, each followed by a run of separators. -/
def join_words : List (CStr × CStr) → CStr
  | [] => []
  | (w, d) :: rest => w ++ d ++ join_words rest

/-- Every word is a non-empty run without delimiters, every separator is a
run of delimiters, and only the last separator may be empty: the words are
the maximal runs of non-delimiters of `join_words`. -/
def Separated : List (CStr × CStr) → Prop
  | [] => True
  | (w, d) :: rest =>
    w ≠ [] ∧ (∀ c ∈ w, is_delim c = false) ∧ (∀ c ∈ d, is_delim c = true)
      ∧ (rest ≠ [] → d ≠ []) ∧ Separated rest

/-- The background flag set on a parsed line. -/
def Parsed.set_background : Parsed → Parsed
  | Parsed.abort evs => Parsed.abort evs
  | Parsed.command _ input_fd output_fd tokens evs =>
    Parsed.command true input_fd output_fd tokens evs

/-- The names tested by the `strcmp` chain of `parse_and_execute`. -/
def builtin_names : List CStr :=
  ["cd".toList, "pwd".toList, "set".toList, "unset".toList, "echo".toList]

/-- A line of `n` one-letter words: `a a a ... a `. -/
def words_line : Nat → CStr
  | 0 => []
  | n + 1 => 'a' :: ' ' :: words_line n

/-! ## The session loop -/

/-- What `fgets` stores when `n` more characters fit: the text up to and
including the first newline, and the unread input. -/
def read_line : Nat → CStr → CStr × CStr
  | 0, s => ([], s)
  | _ + 1, [] => ([], [])
  | n + 1, c :: cs =>
    if c = '\n' then ([c], cs) else (c :: (read_line n cs).1, (read_line n cs).2)

/-- Library call `fgets(input, size, stdin)`: NULL at the end of the input,
otherwise at most `size - 1` characters of the next line. -/
def fgets (size : Nat) (stdin : CStr) : Option (CStr × CStr) :=
  if stdin = [] then none else some (read_line (size - 1) stdin)

/-- The prompt printed by `main`. -/
def prompt : CStr := "xsh# ".toList

/-- The `while (1)` loop of `main` on the unread input `stdin`; `os i` gives
the results of the system calls made for the `i`-th line. Every iteration but
the last consumes a character, so `stdin.length + 1` iterations are enough. -/
def main_loop (os : Nat → OS) : Nat → Nat → Env → CStr → Option Outcome
  | 0, _, _, _ => none
  | fuel + 1, i, env, stdin =>
    match fgets MAX_INPUT stdin with
    | none => some ⟨env, [Event.stdout prompt]⟩
    | some (input, rest) =>
      if input = "quit\n".toList ∨ input = "exit\n".toList then
        some ⟨env, [Event.stdout prompt]⟩
      else
        match parse_and_execute (os i) env input with
        | none => none
        | some out =>
          (main_loop os fuel (i + 1) out.env rest).map
            (fun r => ⟨r.env, Event.stdout prompt :: out.events ++ r.events⟩)

/-- The function `main`, reading the whole of `stdin`. -/
def main (os : Nat → OS) (env : Env) (stdin : CStr) : Option Outcome :=
  main_loop os (stdin.length + 1) 0 env stdin

/-- Message of line 85. -/
def argument_too_long : CStr := "Error: argument too long\n".toList

/-! ## Descriptors and files -/

/-- What a descriptor of the interpreter refers to: the stream descriptor `fd`
referred to when the interpreter started, a named file, or nothing. -/
inductive Stream where
  | std (fd : Int)
  | file (name : CStr)
  | closed
  deriving DecidableEq, Repr

/-- The interpreter process as the operating system sees it: its descriptor
table, the contents of the files written so far, and the text written to the
original standard output. -/
structure World where
  fds : Int → Stream
  files : CStr → Option CStr
  console : CStr

/-- The interpreter at start-up: descriptors 0, 1 and 2 are the standard
streams, nothing else is open. -/
def initial_world (files : CStr → Option CStr) : World :=
  { fds := fun fd => if fd = 0 ∨ fd = 1 ∨ fd = 2 then Stream.std fd else Stream.closed,
    files := files, console := [] }

/-- Text written to a stream: appended to the named file, or to the console
when the stream is the original standard output. -/
def World.write (w : World) (s : Stream) (text : CStr) : World :=
  match s with
  | Stream.file name =>
    { w with files := fun n => if n = name then some ((w.files name).getD [] ++ text)
                               else w.files n }
  | Stream.std fd => if fd = 1 then { w with console := w.console ++ text } else w
  | Stream.closed => w

/-- A descriptor made to refer to a stream. -/
def World.set_fd (w : World) (fd : Int) (s : Stream) : World :=
  { w with fds := fun k => if k = fd then s else w.fds k }

/-- Effect of one event on the interpreter process. `child prog argv` is the
text the program writes to its standard output; a child started with
`P_WAIT` has written it to what descriptor 1 refers to when `_spawnvp`
returns, and `printf` of the interpreter writes there too. -/
def World.apply (child : CStr → List CStr → CStr) (w : World) : Event → World
  | Event.stdout text => w.write (w.fds 1) text
  | Event.open_read name fd => if fd = -1 then w else w.set_fd fd (Stream.file name)
  | Event.open_write name fd =>
    if fd = -1 then w
    else { w.set_fd fd (Stream.file name) with
           files := fun n => if n = name then some [] else w.files n }
  | Event.dup2 fd target =>
    if w.fds fd = Stream.closed then w else w.set_fd target (w.fds fd)
  | Event.close fd => w.set_fd fd Stream.closed
  | Event.spawn SpawnMode.P_WAIT prog argv pid =>
    if pid = -1 then w else w.write (w.fds 1) (child prog argv)
  | _ => w

/-- Effect of a trace of events, in order. -/
def World.run (child : CStr → List CStr → CStr) (w : World) (events : List Event) : World :=
  events.foldl (World.apply child) w

/-- Number of `_close(fd)` calls in a trace. -/
def close_count (fd : Int) (events : List Event) : Nat :=
  events.count (Event.close fd)

def Event.is_open_write : Event → Bool
  | Event.open_write _ _ => true
  | _ => false

/-- Events that touch neither the descriptor table nor a child process. -/
def Event.is_plain : Event → Bool
  | Event.stdout _ => true
  | Event.stderr _ => true
  | Event.perror _ => true
  | Event.chdir _ _ => true
  | Event.putenv _ _ => true
  | _ => false

/-- A child that writes `out` whatever it is. -/
def child_writes (out : CStr) : CStr → List CStr → CStr := fun _ _ => out

/-- Events that change where standard output goes: opening an output file,
or `_dup2` onto descriptor 1. -/
def Event.redirects_output : Event → Bool
  | Event.open_write _ _ => true
  | Event.dup2 _ target => decide (target = STDOUT_FILENO)
  | _ => false

/-- The events recorded while a line is parsed. -/
def Parsed.events : Parsed → List Event
  | Parsed.abort evs => evs
  | Parsed.command _ _ _ _ evs => evs

/-- The events recorded by one redirection clause. -/
def Redirect.events : Redirect → List Event
  | Redirect.abort evs => evs
  | Redirect.go _ _ evs => evs

/-! ## Lemmas on `strchr` -/

theorem strchr_eq_none {s : CStr} {c : Char} (h : c ∉ s) : strchr s c = none := by
  induction s with
  | nil => rfl
  | cons x xs ih =>
    have hx : x ≠ c := fun e => h (by simp [e])
    have hxs : c ∉ xs := fun e => h (by simp [e])
    simp [strchr, hx, ih hxs]

theorem strchr_append {pre : CStr} {c : Char} (h : c ∉ pre) (after : CStr) :
    strchr (pre ++ c :: after) c = some (pre, after) := by
  induction pre with
  | nil => simp [strchr]
  | cons x xs ih =>
    have hx : x ≠ c := fun e => h (by simp [e])
    have hxs : c ∉ xs := fun e => h (by simp [e])
    simp [strchr, hx, ih hxs]

theorem strchr_some {s : CStr} {c : Char} {pre after : CStr}
    (h : strchr s c = some (pre, after)) : s = pre ++ c :: after ∧ c ∉ pre := by
  induction s generalizing pre after with
  | nil => simp [strchr] at h
  | cons x xs ih =>
    by_cases hx : x = c
    · simp [strchr, hx] at h
      obtain ⟨h1, h2⟩ := h
      subst h1 h2
      simp [hx]
    · simp only [strchr, hx, if_false] at h
      cases hr : strchr xs c with
      | none => simp [hr] at h
      | some p =>
        obtain ⟨a, b⟩ := p
        simp [hr] at h
        obtain ⟨h1, h2⟩ := h
        subst h1 h2
        obtain ⟨e, hn⟩ := ih hr
        refine ⟨by simp [← e], ?_⟩
        simp only [List.mem_cons, not_or]
        exact ⟨fun e => hx e.symm, hn⟩

theorem strchr_isSome_iff {s : CStr} {c : Char} : (strchr s c).isSome = true ↔ c ∈ s := by
  constructor
  · intro h
    cases hr : strchr s c with
    | none => simp [hr] at h
    | some p =>
      obtain ⟨a, b⟩ := p
      rw [(strchr_some hr).1]
      simp
  · intro h
    by_contra hn
    have : strchr s c = none := by
      cases hr : strchr s c with
      | none => rfl
      | some p => simp [hr] at hn
    induction s with
    | nil => simp at h
    | cons x xs ih =>
      by_cases hx : x = c
      · simp [strchr, hx] at this
      · simp only [strchr, hx, if_false, Option.map_eq_none'] at this
        have hm : c ∈ xs := by
          rcases List.mem_cons.1 h with e | e
          · exact absurd e.symm hx
          · exact e
        exact ih hm (by simp [this]) this

/-! ## Lemmas on variable expansion -/

theorem subst_loop_no_dollar (env : Env) (fuel : Nat) (buffer : CStr) (off : Nat)
    {command : CStr} (h : '$' ∉ command) :
    subst_loop env (fuel + 1) buffer off command = some (buffer, off, command) := by
  simp [subst_loop, strchr_eq_none h]

theorem substitute_no_dollar (env : Env) {s : CStr} (h : '$' ∉ s)
    (hlen : s.length < MAX_INPUT) : substitute_env_vars env s = some s := by
  simp [substitute_env_vars, expand_buffer, subst_loop_no_dollar env _ _ _ h, append_into, hlen]

theorem takeWhile_run {p : Char → Bool} {name rest : CStr}
    (hname : ∀ c ∈ name, p c = true) (hrest : ∀ c ∈ rest.head?, p c = false) :
    (name ++ rest).takeWhile p = name ∧ (name ++ rest).dropWhile p = rest := by
  induction name with
  | nil =>
    cases rest with
    | nil => simp
    | cons c cs =>
      have hc : p c = false := hrest c (by simp)
      simp [List.takeWhile, List.dropWhile, hc]
  | cons x xs ih =>
    have hx : p x = true := hname x (by simp)
    have hxs : ∀ c ∈ xs, p c = true := fun c hc => hname c (by simp [hc])
    obtain ⟨h1, h2⟩ := ih hxs
    simp [List.takeWhile, List.dropWhile, hx, h1, h2]

theorem length_dropWhile_le (p : Char → Bool) (s : CStr) :
    (s.dropWhile p).length ≤ s.length := by
  induction s with
  | nil => simp
  | cons x xs ih =>
    simp only [List.dropWhile]
    split
    · simp only [List.length_cons]; omega
    · simp

theorem subst_loop_fuel (env : Env) : ∀ (n m : Nat) (b : CStr) (off : Nat) (cmd : CStr),
    cmd.length < n → cmd.length < m →
    subst_loop env n b off cmd = subst_loop env m b off cmd := by
  intro n
  induction n with
  | zero => intro m b off cmd h; omega
  | succ n ih =>
    intro m b off cmd hn hm
    cases m with
    | zero => omega
    | succ m =>
      simp only [subst_loop]
      cases hr : strchr cmd '$' with
      | none => rfl
      | some q =>
        obtain ⟨pre, after⟩ := q
        have hs := (strchr_some hr).1
        have hl := length_dropWhile_le is_name_char after
        have hcl : cmd.length = pre.length + (after.length + 1) := by
          rw [hs]; simp
        simp only []
        cases append_into MAX_INPUT b pre with
        | none => rfl
        | some b1 =>
          simp only []
          split
          · cases append_into MAX_INPUT b1 ((getenv env (after.takeWhile is_name_char)).getD []) with
            | none => rfl
            | some b2 =>
              simp only []
              apply ih <;> omega
          · rfl

theorem subst_loop_step (env : Env) (fuel : Nat) (b : CStr) (off : Nat)
    {cmd pre after : CStr} (hr : strchr cmd '$' = some (pre, after)) :
    subst_loop env (fuel + 1) b off cmd =
      if b.length + pre.length
            + ((getenv env (after.takeWhile is_name_char)).getD []).length < MAX_INPUT
          ∧ (after.takeWhile is_name_char).length < VAR_NAME_SIZE then
        subst_loop env fuel (b ++ pre ++ (getenv env (after.takeWhile is_name_char)).getD [])
          (off + (pre.length + 1 + (after.takeWhile is_name_char).length))
          (after.dropWhile is_name_char)
      else none := by
  simp only [subst_loop, hr, append_into]
  generalize (getenv env (after.takeWhile is_name_char)).getD [] = v
  by_cases h1 : b.length + pre.length < MAX_INPUT
  · simp only [h1, if_true]
    by_cases h2 : (after.takeWhile is_name_char).length < VAR_NAME_SIZE
    · simp only [h2, if_true, and_true, List.length_append]
      by_cases h3 : b.length + pre.length + v.length < MAX_INPUT
      · simp only [h3, if_true]
      · simp only [h3, if_false]
    · simp only [h2, if_false, and_false]
  · have h3 : ¬ b.length + pre.length + v.length < MAX_INPUT := by omega
    simp only [h1, h3, if_false, false_and]

theorem subst_loop_shift (env : Env) : ∀ (fuel : Nat) (b : CStr) (off : Nat) (cmd : CStr),
    b.length < MAX_INPUT →
    subst_loop env fuel b off cmd =
      (subst_loop env fuel [] 0 cmd).bind (fun x =>
        if b.length + x.1.length < MAX_INPUT then some (b ++ x.1, off + x.2.1, x.2.2)
        else none) := by
  intro fuel
  induction fuel with
  | zero => intro b off cmd _; simp [subst_loop]
  | succ fuel ih =>
    intro b off cmd hb
    cases hr : strchr cmd '$' with
    | none => simp [subst_loop, hr, hb]
    | some q =>
      obtain ⟨pre, after⟩ := q
      rw [subst_loop_step env fuel b off hr, subst_loop_step env fuel [] 0 hr]
      generalize (getenv env (after.takeWhile is_name_char)).getD [] = v
      generalize after.dropWhile is_name_char = rest
      generalize (after.takeWhile is_name_char).length = n
      simp only [List.length_nil, Nat.zero_add, List.nil_append]
      by_cases hn : n < VAR_NAME_SIZE
      · by_cases hB : pre.length + v.length < MAX_INPUT
        · have hpv : (pre ++ v).length < MAX_INPUT := by simp; omega
          simp only [hB, hn, and_self, if_true]
          rw [ih (pre ++ v) _ rest hpv]
          by_cases hA : b.length + pre.length + v.length < MAX_INPUT
          · have hbpv : (b ++ pre ++ v).length < MAX_INPUT := by simp; omega
            simp only [hA, if_true]
            rw [ih (b ++ pre ++ v) _ rest hbpv]
            cases subst_loop env fuel [] 0 rest with
            | none => rfl
            | some x =>
              obtain ⟨r, j, c⟩ := x
              simp only [Option.some_bind, List.length_append]
              by_cases h5 : b.length + pre.length + v.length + r.length < MAX_INPUT
              · have h6 : pre.length + v.length + r.length < MAX_INPUT := by omega
                have h7 : b.length + (pre.length + v.length + r.length) < MAX_INPUT := by omega
                simp only [h5, h6, if_true, Option.some_bind, List.length_append, h7]
                simp [Nat.add_assoc]
              · by_cases h6 : pre.length + v.length + r.length < MAX_INPUT
                · have h7 : ¬ b.length + (pre.length + v.length + r.length) < MAX_INPUT := by
                    omega
                  have h8 : ¬ b.length + (pre.length + (v.length + r.length)) < MAX_INPUT := by
                    omega
                  simp [h5, h6, h7, h8]
                · simp [h5, h6]
          · simp only [hA, if_false]
            cases subst_loop env fuel [] 0 rest with
            | none => rfl
            | some x =>
              obtain ⟨r, j, c⟩ := x
              simp only [Option.some_bind, List.length_append]
              by_cases h6 : pre.length + v.length + r.length < MAX_INPUT
              · have h7 : ¬ b.length + (pre.length + v.length + r.length) < MAX_INPUT := by
                  omega
                have h8 : ¬ b.length + (pre.length + (v.length + r.length)) < MAX_INPUT := by
                  omega
                simp [h6, h7, h8]
              · simp [h6]
        · have hA : ¬ b.length + pre.length + v.length < MAX_INPUT := by omega
          simp [hA, hB]
      · simp [hn]

/-- One reference at the front of a string: the text before the `$`, the value
of the name, then the buffer assembled for the rest. -/
theorem expand_buffer_reference (env : Env) {pre name rest r : CStr} {k : Nat}
    (hpre : '$' ∉ pre) (hname : ∀ c ∈ name, is_name_char c = true)
    (hrest : ∀ c ∈ rest.head?, is_name_char c = false)
    (hlen : name.length < VAR_NAME_SIZE)
    (hr : expand_buffer env rest = some (r, k))
    (hfit : pre.length + ((getenv env name).getD []).length + r.length < MAX_INPUT) :
    expand_buffer env (pre ++ '$' :: (name ++ rest)) =
      some (pre ++ (getenv env name).getD [] ++ r, pre.length + 1 + name.length + k) := by
  unfold expand_buffer at hr ⊢
  have hs := strchr_append hpre (name ++ rest)
  obtain ⟨ht, hd⟩ := takeWhile_run hname hrest
  have hlen2 : (pre ++ '$' :: (name ++ rest)).length
      = (pre.length + name.length + rest.length) + 1 := by
    simp; omega
  rw [hlen2, subst_loop_step env _ [] 0 hs, ht, hd]
  generalize (getenv env name).getD [] = v at hfit ⊢
  have hc : ([] : CStr).length + pre.length + v.length < MAX_INPUT ∧
      name.length < VAR_NAME_SIZE := ⟨by simp; omega, hlen⟩
  rw [if_pos hc]
  rw [subst_loop_fuel env (pre.length + name.length + rest.length + 1) (rest.length + 1)
    _ _ rest (by omega) (by omega)]
  rw [subst_loop_shift env _ _ _ rest (by simp; omega)]
  cases hl : subst_loop env (rest.length + 1) [] 0 rest with
  | none => simp [hl] at hr
  | some x =>
    obtain ⟨b1, k1, c1⟩ := x
    simp only [hl, append_into, Option.map_eq_some'] at hr
    obtain ⟨a, ha, he⟩ := hr
    by_cases hb : b1.length + c1.length < MAX_INPUT
    · simp only [hb, if_true, Option.some.injEq] at ha
      subst ha
      simp only [Prod.mk.injEq] at he
      obtain ⟨he1, he2⟩ := he
      subst he1 he2
      simp only [List.length_append] at hfit
      have h1 : pre.length + v.length + b1.length < MAX_INPUT := by omega
      have h2 : pre.length + v.length + b1.length + c1.length < MAX_INPUT := by omega
      simp [append_into, h1, h2]
      omega
    · simp [hb] at ha

/-! ## Lemmas on `strtok` and the token loop -/

theorem dropWhile_delims {d : CStr} (hd : ∀ c ∈ d, is_delim c = true) (s : CStr) :
    (d ++ s).dropWhile is_delim = s.dropWhile is_delim := by
  induction d with
  | nil => rfl
  | cons x xs ih =>
    have hx : is_delim x = true := hd x (by simp)
    have hxs : ∀ c ∈ xs, is_delim c = true := fun c hc => hd c (by simp [hc])
    simp [List.dropWhile, hx, ih hxs]

theorem strtok_delims {d : CStr} (hd : ∀ c ∈ d, is_delim c = true) (s : CStr) :
    strtok (d ++ s) = strtok s := by
  simp only [strtok, dropWhile_delims hd]

theorem strtok_all_delims {d : CStr} (hd : ∀ c ∈ d, is_delim c = true) : strtok d = none := by
  have h := dropWhile_delims hd []
  simp only [List.append_nil, List.dropWhile_nil] at h
  simp [strtok, h]

theorem strtok_word {w rest : CStr} (hne : w ≠ []) (hw : ∀ c ∈ w, is_delim c = false)
    (hrest : ∀ c ∈ rest.head?, is_delim c = true) :
    strtok (w ++ rest) = some (w, rest.tail) := by
  have hw2 : ∀ c ∈ w, (fun x => !is_delim x) c = true := fun c hc => by simp [hw c hc]
  have hr2 : ∀ c ∈ rest.head?, (fun x => !is_delim x) c = false := fun c hc => by
    simp [hrest c hc]
  obtain ⟨h1, h2⟩ := takeWhile_run hw2 hr2
  cases w with
  | nil => exact absurd rfl hne
  | cons x xs =>
    have hx : is_delim x = false := hw x (by simp)
    have hdw : ((x :: xs) ++ rest).dropWhile is_delim = (x :: xs) ++ rest := by
      simp [List.dropWhile, hx]
    simp only [strtok, hdw]
    simp only [List.cons_append] at h1 h2 ⊢
    simp only [h1, h2]

theorem strtok_loop_join : ∀ (ws : List (CStr × CStr)) (lead : CStr) (fuel : Nat),
    Separated ws → (∀ c ∈ lead, is_delim c = true) → ws.length < fuel →
    strtok_loop fuel (lead ++ join_words ws) = ws.map Prod.fst := by
  intro ws
  induction ws with
  | nil =>
    intro lead fuel _ hl hf
    cases fuel with
    | zero => omega
    | succ n => simp [strtok_loop, join_words, strtok_all_delims hl]
  | cons p rest ih =>
    obtain ⟨w, d⟩ := p
    intro lead fuel hs hl hf
    obtain ⟨hne, hw, hd, hlast, hsep⟩ := hs
    cases fuel with
    | zero => omega
    | succ n =>
      have hn : rest.length < n := by simpa using hf
      simp only [strtok_loop, join_words, strtok_delims hl, List.append_assoc]
      cases d with
      | nil =>
        have hrest : rest = [] := by
          by_contra hc
          exact hlast hc rfl
        subst hrest
        have h := @strtok_word w [] hne hw (by simp)
        simp only [List.append_nil] at h
        simp only [join_words, List.nil_append, List.append_nil, h, List.tail_nil]
        cases n with
        | zero => simp [strtok_loop]
        | succ m => simp [strtok_loop, strtok]
      | cons x xs =>
        have hx : is_delim x = true := hd x (by simp)
        have hxs : ∀ c ∈ xs, is_delim c = true := fun c hc => hd c (by simp [hc])
        have h := @strtok_word w ((x :: xs) ++ join_words rest) hne hw (by simp [hx])
        simp only [List.cons_append] at h ⊢
        simp only [h, List.tail_cons, List.map_cons]
        rw [ih xs n hsep hxs hn]

theorem length_join_words : ∀ (ws : List (CStr × CStr)), Separated ws →
    ws.length ≤ (join_words ws).length := by
  intro ws
  induction ws with
  | nil => intro _; simp
  | cons p rest ih =>
    obtain ⟨w, d⟩ := p
    intro hs
    obtain ⟨hne, _, _, _, hsep⟩ := hs
    have := ih hsep
    have hw : 0 < w.length := List.length_pos.2 hne
    simp only [join_words, List.length_cons, List.length_append]
    omega

theorem tokenize_join {ws : List (CStr × CStr)} {lead : CStr} (hs : Separated ws)
    (hl : ∀ c ∈ lead, is_delim c = true) :
    tokenize (lead ++ join_words ws) = ws.map Prod.fst := by
  have := length_join_words ws hs
  exact strtok_loop_join ws lead _ hs hl (by simp only [List.length_append]; omega)

theorem exists_words : ∀ (s : CStr), ∃ (lead : CStr) (ws : List (CStr × CStr)),
    (∀ c ∈ lead, is_delim c = true) ∧ Separated ws ∧ s = lead ++ join_words ws := by
  intro s
  induction s with
  | nil => exact ⟨[], [], by simp, trivial, rfl⟩
  | cons x xs ih =>
    obtain ⟨lead, ws, hl, hs, he⟩ := ih
    by_cases hx : is_delim x = true
    · refine ⟨x :: lead, ws, ?_, hs, by simp [he]⟩
      intro c hc
      rcases List.mem_cons.1 hc with e | e
      · simpa [e] using hx
      · exact hl c e
    · have hx2 : is_delim x = false := by simpa using hx
      cases lead with
      | nil =>
        cases ws with
        | nil =>
          refine ⟨[], [([x], [])], by simp, ?_, by simp [he, join_words]⟩
          simp [Separated, hx2]
        | cons p rest =>
          obtain ⟨w, d⟩ := p
          obtain ⟨hne, hw, hd, hlast, hsep⟩ := hs
          refine ⟨[], (x :: w, d) :: rest, by simp, ?_, by simp [he, join_words]⟩
          refine ⟨by simp, ?_, hd, hlast, hsep⟩
          intro c hc
          rcases List.mem_cons.1 hc with e | e
          · simpa [e] using hx2
          · exact hw c e
      | cons y ys =>
        refine ⟨[], ([x], y :: ys) :: ws, by simp, ?_, by simp [he, join_words]⟩
        exact ⟨by simp, by simp [hx2], hl, fun _ => by simp, hs⟩

theorem separated_words {ws : List (CStr × CStr)} (hs : Separated ws) :
    ∀ t ∈ ws.map Prod.fst, t ≠ [] ∧ ∀ c ∈ t, is_delim c = false := by
  induction ws with
  | nil => intro t ht; simp at ht
  | cons p rest ih =>
    obtain ⟨w, d⟩ := p
    obtain ⟨hne, hw, _, _, hsep⟩ := hs
    intro t ht
    simp only [List.map_cons, List.mem_cons] at ht
    rcases ht with e | e
    · subst e; exact ⟨hne, hw⟩
    · exact ih hsep t e

theorem mem_join_words {ws : List (CStr × CStr)} {t : CStr} (ht : t ∈ ws.map Prod.fst) :
    ∀ c ∈ t, c ∈ join_words ws := by
  induction ws with
  | nil => simp at ht
  | cons p rest ih =>
    obtain ⟨w, d⟩ := p
    intro c hc
    simp only [List.map_cons, List.mem_cons] at ht
    simp only [join_words, List.mem_append]
    rcases ht with e | e
    · subst e; exact Or.inl (Or.inl hc)
    · exact Or.inr (ih e c hc)

theorem tokenize_chars {s t : CStr} (ht : t ∈ tokenize s) : ∀ c ∈ t, c ∈ s := by
  obtain ⟨lead, ws, hl, hs, he⟩ := exists_words s
  rw [he, tokenize_join hs hl] at ht
  intro c hc
  rw [he]
  exact List.mem_append.2 (Or.inr (mem_join_words ht c hc))

theorem tokenize_words {s t : CStr} (ht : t ∈ tokenize s) :
    t ≠ [] ∧ ∀ c ∈ t, is_delim c = false := by
  obtain ⟨lead, ws, hl, hs, he⟩ := exists_words s
  rw [he, tokenize_join hs hl] at ht
  exact separated_words hs t ht

theorem extend_last_separator : ∀ (wa : List (CStr × CStr)), wa ≠ [] → Separated wa →
    ∀ (e : CStr) (wb : List (CStr × CStr)), e ≠ [] → (∀ c ∈ e, is_delim c = true) →
    Separated wb →
    ∃ wc, wc.map Prod.fst = wa.map Prod.fst ++ wb.map Prod.fst ∧ Separated wc ∧
      join_words wc = join_words wa ++ e ++ join_words wb := by
  intro wa
  induction wa with
  | nil => intro h; exact absurd rfl h
  | cons p rest ih =>
    obtain ⟨w, d⟩ := p
    intro _ hs e wb hne he hb
    obtain ⟨hw1, hw2, hd, hlast, hsep⟩ := hs
    cases rest with
    | nil =>
      refine ⟨(w, d ++ e) :: wb, by simp, ?_, by simp [join_words]⟩
      refine ⟨hw1, hw2, ?_, fun _ => by simp [hne], hb⟩
      intro c hc
      rcases List.mem_append.1 hc with h | h
      · exact hd c h
      · exact he c h
    | cons q rest2 =>
      obtain ⟨wc, h1, h2, h3⟩ := ih (by simp) hsep e wb hne he hb
      refine ⟨(w, d) :: wc, by simp [h1], ?_, by simp [join_words, h3]⟩
      exact ⟨hw1, hw2, hd, fun _ => hlast (by simp), h2⟩

theorem tokenize_append_delims (a b : CStr) {d : CStr} (hne : d ≠ [])
    (hd : ∀ c ∈ d, is_delim c = true) :
    tokenize (a ++ d ++ b) = tokenize a ++ tokenize b := by
  obtain ⟨la, wa, hla, hsa, hea⟩ := exists_words a
  obtain ⟨lb, wb, hlb, hsb, heb⟩ := exists_words b
  have hta : tokenize a = wa.map Prod.fst := by rw [hea]; exact tokenize_join hsa hla
  have htb : tokenize b = wb.map Prod.fst := by rw [heb]; exact tokenize_join hsb hlb
  rw [hta, htb]
  have hdl : ∀ c ∈ d ++ lb, is_delim c = true := by
    intro c hc
    rcases List.mem_append.1 hc with h | h
    · exact hd c h
    · exact hlb c h
  cases hwa : wa with
  | nil =>
    subst hwa
    have he : a ++ d ++ b = (la ++ (d ++ lb)) ++ join_words wb := by
      rw [hea, heb]; simp [join_words]
    rw [he, tokenize_join hsb]
    · simp
    · intro c hc
      rcases List.mem_append.1 hc with h | h
      · exact hla c h
      · exact hdl c h
  | cons q rest =>
    have hnil : wa ≠ [] := by simp [hwa]
    obtain ⟨wc, h1, h2, h3⟩ :=
      extend_last_separator wa hnil hsa (d ++ lb) wb (by simp [hne]) hdl hsb
    have he : a ++ d ++ b = la ++ join_words wc := by
      rw [hea, heb, h3]; simp
    rw [he, tokenize_join h2 hla, h1, hwa]

/-! ## Lemmas on parsing -/

theorem cut_background_no_amp {line : CStr} (h : '&' ∉ line) :
    cut_background line = (false, line) := by
  simp [cut_background, strchr_eq_none h]

theorem cut_background_amp {pre : CStr} (h : '&' ∉ pre) (suf : CStr) :
    cut_background (pre ++ '&' :: suf) = (true, pre) := by
  simp [cut_background, strchr_append h]

theorem mem_split {s : CStr} {c : Char} (h : c ∈ s) :
    ∃ pre suf, s = pre ++ c :: suf ∧ c ∉ pre := by
  cases hr : strchr s c with
  | none =>
    have := strchr_isSome_iff.2 h
    simp [hr] at this
  | some p =>
    obtain ⟨a, b⟩ := p
    exact ⟨a, b, strchr_some hr⟩

theorem parse_plain (os : OS) {line : CStr} (h1 : '&' ∉ line) (h2 : '<' ∉ line)
    (h3 : '>' ∉ line) :
    parse os line = Parsed.command false STDIN_FILENO STDOUT_FILENO (tokenize line) [] := by
  simp [parse, cut_background_no_amp h1, redirect_input, redirect_output,
    strchr_eq_none h2, strchr_eq_none h3]

theorem cut_background_chars (line : CStr) :
    '&' ∉ (cut_background line).2 ∧ ∀ c ∈ (cut_background line).2, c ∈ line := by
  unfold cut_background
  cases hr : strchr line '&' with
  | none =>
    refine ⟨?_, fun c hc => hc⟩
    intro hm
    have := strchr_isSome_iff.2 hm
    simp [hr] at this
  | some p =>
    obtain ⟨a, b⟩ := p
    obtain ⟨he, hn⟩ := strchr_some hr
    refine ⟨hn, fun c hc => ?_⟩
    rw [he]
    exact List.mem_append.2 (Or.inl hc)

theorem redirect_input_go {os : OS} {l l2 : CStr} {fd : Int} {evs : List Event}
    (h : redirect_input os l = Redirect.go l2 fd evs) :
    '<' ∉ l2 ∧ ∀ c ∈ l2, c ∈ l := by
  unfold redirect_input at h
  cases hr : strchr l '<' with
  | none =>
    simp only [hr, Redirect.go.injEq] at h
    obtain ⟨h1, _, _⟩ := h
    subst h1
    refine ⟨?_, fun c hc => hc⟩
    intro hm
    have := strchr_isSome_iff.2 hm
    simp [hr] at this
  | some p =>
    obtain ⟨a, b⟩ := p
    obtain ⟨he, hn⟩ := strchr_some hr
    simp only [hr] at h
    cases ht : strtok b with
    | none => simp [ht] at h
    | some q =>
      obtain ⟨f, r⟩ := q
      simp only [ht] at h
      split at h
      · simp at h
      · simp only [Redirect.go.injEq] at h
        obtain ⟨h1, _, _⟩ := h
        subst h1
        refine ⟨hn, fun c hc => ?_⟩
        rw [he]
        exact List.mem_append.2 (Or.inl hc)

theorem redirect_output_go {os : OS} {l l2 : CStr} {fd : Int} {evs : List Event}
    (h : redirect_output os l = Redirect.go l2 fd evs) :
    '>' ∉ l2 ∧ ∀ c ∈ l2, c ∈ l := by
  unfold redirect_output at h
  cases hr : strchr l '>' with
  | none =>
    simp only [hr, Redirect.go.injEq] at h
    obtain ⟨h1, _, _⟩ := h
    subst h1
    refine ⟨?_, fun c hc => hc⟩
    intro hm
    have := strchr_isSome_iff.2 hm
    simp [hr] at this
  | some p =>
    obtain ⟨a, b⟩ := p
    obtain ⟨he, hn⟩ := strchr_some hr
    simp only [hr] at h
    cases ht : strtok b with
    | none => simp [ht] at h
    | some q =>
      obtain ⟨f, r⟩ := q
      simp only [ht] at h
      split at h
      · simp at h
      · simp only [Redirect.go.injEq] at h
        obtain ⟨h1, _, _⟩ := h
        subst h1
        refine ⟨hn, fun c hc => ?_⟩
        rw [he]
        exact List.mem_append.2 (Or.inl hc)

theorem parse_command_residue {os : OS} {line : CStr} {bg : Bool} {i o : Int}
    {toks : List CStr} {evs : List Event}
    (h : parse os line = Parsed.command bg i o toks evs) :
    ∃ l3, toks = tokenize l3 ∧ '&' ∉ l3 ∧ '<' ∉ l3 ∧ '>' ∉ l3 ∧ ∀ c ∈ l3, c ∈ line := by
  unfold parse at h
  obtain ⟨hb1, hb2⟩ := cut_background_chars line
  cases hi : redirect_input os (cut_background line).2 with
  | abort e => simp [hi] at h
  | go l2 fd1 e1 =>
    obtain ⟨hi1, hi2⟩ := redirect_input_go hi
    simp only [hi] at h
    cases ho : redirect_output os l2 with
    | abort e => simp [ho] at h
    | go l3 fd2 e2 =>
      obtain ⟨ho1, ho2⟩ := redirect_output_go ho
      simp only [ho, Parsed.command.injEq] at h
      obtain ⟨_, _, _, ht, _⟩ := h
      refine ⟨l3, ht.symm, ?_, ?_, ho1, fun c hc => hb2 c (hi2 c (ho2 c hc))⟩
      · exact fun hm => hb1 (hi2 _ (ho2 _ hm))
      · exact fun hm => hi1 (ho2 _ hm)

theorem delim_not_directive {c : Char} (h : is_delim c = true) :
    c ≠ '&' ∧ c ≠ '<' ∧ c ≠ '>' := by
  refine ⟨?_, ?_, ?_⟩ <;> intro e <;> subst e <;> revert h <;> decide

theorem delims_no_directive {ws : CStr} (hws : ∀ c ∈ ws, is_delim c = true) :
    '&' ∉ ws ∧ '<' ∉ ws ∧ '>' ∉ ws :=
  ⟨fun h => (delim_not_directive (hws _ h)).1 rfl,
   fun h => (delim_not_directive (hws _ h)).2.1 rfl,
   fun h => (delim_not_directive (hws _ h)).2.2 rfl⟩

theorem cut_background_append {a : CStr} (h : '&' ∉ a) (b : CStr) :
    (cut_background (a ++ b)).2 = a ++ (cut_background b).2 := by
  by_cases hb : '&' ∈ b
  · obtain ⟨p, q, he, hn⟩ := mem_split hb
    have hap : '&' ∉ a ++ p := by
      intro hm
      rcases List.mem_append.1 hm with e | e
      · exact h e
      · exact hn e
    have e1 : a ++ b = (a ++ p) ++ '&' :: q := by rw [he]; simp
    rw [e1, cut_background_amp hap, he, cut_background_amp hn]
  · have hab : '&' ∉ a ++ b := by
      intro hm
      rcases List.mem_append.1 hm with e | e
      · exact h e
      · exact hb e
    rw [cut_background_no_amp hab, cut_background_no_amp hb]

theorem cut_background_head {t : CStr} (h : ∀ c ∈ t.head?, is_delim c = true ∨ c = '&') :
    ∀ c ∈ (cut_background t).2.head?, is_delim c = true := by
  cases t with
  | nil => simp [cut_background, strchr]
  | cons x xs =>
    by_cases hx : x = '&'
    · subst hx
      simp [cut_background, strchr]
    · have hd : is_delim x = true := by
        rcases h x (by simp) with e | e
        · exact e
        · exact absurd e hx
      intro c hc
      unfold cut_background at hc
      simp only [strchr, hx, if_false] at hc
      cases hr : strchr xs '&' with
      | none =>
        simp only [hr, Option.map_none', List.head?_cons, Option.mem_def,
          Option.some.injEq] at hc
        rw [← hc]; exact hd
      | some q =>
        simp only [hr, Option.map_some', List.head?_cons, Option.mem_def,
          Option.some.injEq] at hc
        rw [← hc]; exact hd

theorem cut_background_end {t : CStr} (h : t = [] ∨ t.head? = some '&') :
    (cut_background t).2 = [] := by
  rcases h with e | e
  · subst e; rfl
  · cases t with
    | nil => rfl
    | cons x xs =>
      simp only [List.head?_cons, Option.some.injEq] at e
      subst e
      simp [cut_background, strchr]

theorem redirect_input_none (os : OS) {l : CStr} (h : '<' ∉ l) :
    redirect_input os l = Redirect.go l STDIN_FILENO [] := by
  simp [redirect_input, strchr_eq_none h]

theorem redirect_input_missing (os : OS) {cmd ws : CStr} (h : '<' ∉ cmd)
    (hws : ∀ c ∈ ws, is_delim c = true) :
    redirect_input os (cmd ++ '<' :: ws) = Redirect.abort [Event.stderr no_input_file] := by
  simp [redirect_input, strchr_append h, strtok_all_delims hws]

theorem redirect_input_opened (os : OS) {pre after f r : CStr} (h : '<' ∉ pre)
    (ht : strtok after = some (f, r)) (ho : os.open_read f ≠ -1) :
    redirect_input os (pre ++ '<' :: after)
      = Redirect.go pre (os.open_read f) [Event.open_read f (os.open_read f)] := by
  simp [redirect_input, strchr_append h, ht, ho]

theorem redirect_output_missing (os : OS) {cmd ws : CStr} (h : '>' ∉ cmd)
    (hws : ∀ c ∈ ws, is_delim c = true) :
    redirect_output os (cmd ++ '>' :: ws) = Redirect.abort [Event.stderr no_output_file] := by
  simp [redirect_output, strchr_append h, strtok_all_delims hws]

/-! ## Lemmas on events -/

theorem handle_cd_events (os : OS) (args : List CStr) :
    ∀ e ∈ handle_cd os args, e.is_spawn = false := by
  unfold handle_cd
  split
  · split <;> simp [Event.is_spawn]
  · simp [Event.is_spawn]

theorem handle_pwd_events (os : OS) : ∀ e ∈ handle_pwd os, e.is_spawn = false := by
  unfold handle_pwd
  split <;> simp [Event.is_spawn]

theorem handle_set_events (env : Env) (args : List CStr) :
    ∀ e ∈ (handle_set env args).2, e.is_spawn = false := by
  unfold handle_set
  split <;> simp [Event.is_spawn]

theorem handle_unset_events (env : Env) (args : List CStr) :
    ∀ e ∈ (handle_unset env args).2, e.is_spawn = false := by
  unfold handle_unset
  split <;> simp [Event.is_spawn]

theorem echo_loop_events (env : Env) : ∀ (args : List CStr) (index : Nat) (evs : List Event),
    echo_loop env index args = some evs → ∀ e ∈ evs, e.is_spawn = false := by
  intro args
  induction args with
  | nil =>
    intro index evs h
    simp only [echo_loop, Option.some.injEq] at h
    subst h
    simp
  | cons a rest ih =>
    intro index evs h
    simp only [echo_loop] at h
    split at h
    · simp at h
    · rename_i out hout
      split at h
      · simp at h
      · rename_i more hmore
        simp only [Option.some.injEq] at h
        subst h
        have hm := ih (index + 1) more hmore
        have ho : ∀ e ∈ out, e.is_spawn = false := by
          split at hout
          · cases hs : substitute_env_vars env a with
            | none => simp [hs] at hout
            | some b =>
              simp only [hs, Option.map_some', Option.some.injEq] at hout
              subst hout
              simp [Event.is_spawn]
          · simp only [Option.some.injEq] at hout
            subst hout
            simp [Event.is_spawn]
        intro e he
        simp only [List.mem_append] at he
        rcases he with (he | he) | he
        · split at he
          · simp only [List.mem_singleton] at he
            subst he; rfl
          · simp at he
        · exact ho e he
        · exact hm e he

theorem handle_echo_events (env : Env) (args : List CStr) (evs : List Event)
    (h : handle_echo env args = some evs) : ∀ e ∈ evs, e.is_spawn = false := by
  unfold handle_echo at h
  cases hl : echo_loop env 1 (args.drop 1) with
  | none => rw [hl] at h; simp at h
  | some l =>
    rw [hl] at h
    simp only [Option.map_some', Option.some.injEq] at h
    subst h
    intro e he
    rcases List.mem_append.1 he with h1 | h1
    · exact echo_loop_events env _ _ _ hl e h1
    · simp only [List.mem_singleton] at h1
      subst h1; rfl

theorem close_redirections_events (i o : Int) :
    ∀ e ∈ close_redirections i o, e.is_spawn = false ∧ e.is_builtin = false := by
  intro e he
  unfold close_redirections at he
  rcases List.mem_append.1 he with h | h <;> split at h <;>
    simp only [List.mem_singleton, List.not_mem_nil] at h <;> subst h <;> exact ⟨rfl, rfl⟩

theorem redirect_input_events {os : OS} {l l2 : CStr} {fd : Int} {evs : List Event}
    (h : redirect_input os l = Redirect.go l2 fd evs) :
    ∀ e ∈ evs, e.is_spawn = false ∧ e.is_builtin = false := by
  unfold redirect_input at h
  split at h
  · simp only [Redirect.go.injEq] at h
    obtain ⟨_, _, h3⟩ := h
    subst h3; simp
  · split at h
    · split at h
      · simp at h
      · simp only [Redirect.go.injEq] at h
        obtain ⟨_, _, h3⟩ := h
        subst h3
        simp [Event.is_spawn, Event.is_builtin]
    · simp at h

theorem redirect_output_events {os : OS} {l l2 : CStr} {fd : Int} {evs : List Event}
    (h : redirect_output os l = Redirect.go l2 fd evs) :
    ∀ e ∈ evs, e.is_spawn = false ∧ e.is_builtin = false := by
  unfold redirect_output at h
  split at h
  · simp only [Redirect.go.injEq] at h
    obtain ⟨_, _, h3⟩ := h
    subst h3; simp
  · split at h
    · split at h
      · simp at h
      · simp only [Redirect.go.injEq] at h
        obtain ⟨_, _, h3⟩ := h
        subst h3
        simp [Event.is_spawn, Event.is_builtin]
    · simp at h

theorem parse_command_events {os : OS} {line : CStr} {bg : Bool} {i o : Int}
    {toks : List CStr} {evs : List Event}
    (h : parse os line = Parsed.command bg i o toks evs) :
    ∀ e ∈ evs, e.is_spawn = false ∧ e.is_builtin = false := by
  unfold parse at h
  cases hi : redirect_input os (cut_background line).2 with
  | abort e => simp [hi] at h
  | go l2 fd1 e1 =>
    simp only [hi] at h
    cases ho : redirect_output os l2 with
    | abort e => simp [ho] at h
    | go l3 fd2 e2 =>
      simp only [ho, Parsed.command.injEq] at h
      obtain ⟨_, _, _, _, he⟩ := h
      subst he
      intro e hm
      rcases List.mem_append.1 hm with h1 | h1
      · exact redirect_input_events hi e h1
      · exact redirect_output_events ho e h1

theorem execute_command_spawns (os : OS) (args : List CStr) (bg : Bool) (i o : Int) :
    (execute_command os args bg i o).filter Event.is_spawn
      = [Event.spawn (if bg then SpawnMode.P_NOWAIT else SpawnMode.P_WAIT) (args.headD [])
          args (os.spawnvp (if bg then SpawnMode.P_NOWAIT else SpawnMode.P_WAIT)
            (args.headD []) args)]
    ∧ ∀ e ∈ execute_command os args bg i o, e.is_builtin = false := by
  unfold execute_command
  constructor
  · simp only [List.filter_append]
    split <;> split <;> split <;> simp [List.filter, Event.is_spawn]
  · simp only [List.forall_mem_append]
    refine ⟨⟨⟨?_, ?_⟩, ?_⟩, ?_⟩ <;> (try split) <;> simp [Event.is_builtin]

theorem filter_spawn_none {l : List Event} (h : ∀ e ∈ l, e.is_spawn = false) :
    l.filter Event.is_spawn = [] := by
  rw [List.filter_eq_nil_iff]
  intro e he
  simp [h e he]

/-! ## Lemmas on `words_line` -/

theorem length_words_line (n : Nat) : (words_line n).length = 2 * n := by
  induction n with
  | zero => rfl
  | succ n ih => simp only [words_line, List.length_cons, ih]; omega

theorem words_line_chars (n : Nat) : ∀ c ∈ words_line n, c = 'a' ∨ c = ' ' := by
  induction n with
  | zero => intro c hc; simp [words_line] at hc
  | succ n ih =>
    intro c hc
    simp only [words_line, List.mem_cons] at hc
    rcases hc with e | e | e
    · exact Or.inl e
    · exact Or.inr e
    · exact ih c e

theorem words_line_join (n : Nat) :
    words_line n = join_words (List.replicate n (['a'], [' ']))
    ∧ Separated (List.replicate n (['a'], [' '])) := by
  induction n with
  | zero => exact ⟨rfl, trivial⟩
  | succ n ih =>
    obtain ⟨h1, h2⟩ := ih
    refine ⟨by simp [words_line, List.replicate_succ, join_words, ← h1], ?_⟩
    rw [List.replicate_succ]
    exact ⟨by simp, by simp [is_delim, delims], by simp [is_delim, delims],
      fun _ => by simp, h2⟩

theorem tokenize_words_line (n : Nat) : tokenize (words_line n) = List.replicate n ['a'] := by
  obtain ⟨h1, h2⟩ := words_line_join n
  have h := @tokenize_join _ [] h2 (by simp)
  simp only [List.nil_append] at h
  rw [h1, h]
  simp

/-! ## Lemmas on `handle_echo` -/

theorem stdout_text_append (l1 l2 : List Event) :
    stdout_text (l1 ++ l2) = stdout_text l1 ++ stdout_text l2 := by
  induction l1 with
  | nil => rfl
  | cons e rest ih =>
    cases e <;> simp [stdout_text, ih]

theorem intercalate_cons (e : CStr) (es : List CStr) :
    List.intercalate [' '] (e :: es) = e ++ (es.map (fun x => ' ' :: x)).flatten := by
  induction es generalizing e with
  | nil => simp [List.intercalate]
  | cons y ys ih =>
    have h := ih y
    simp only [List.intercalate] at h ⊢
    simp only [List.intersperse_cons₂, List.flatten_cons, h, List.map_cons]
    simp

theorem echo_loop_text (env : Env) : ∀ (args : List CStr) (index : Nat),
    (∀ a ∈ args, a.length < MAX_INPUT) → 1 < index →
    (echo_loop env index args).map stdout_text
      = (args.mapM (substitute_env_vars env)).map
          (fun es => (es.map (fun x => ' ' :: x)).flatten) := by
  intro args
  induction args with
  | nil => intro index _ _; rw [List.mapM_nil]; rfl
  | cons a rest ih =>
    intro index hlen hidx
    have ha : a.length < MAX_INPUT := hlen a (by simp)
    have hr : ∀ x ∈ rest, x.length < MAX_INPUT := fun x hx => hlen x (by simp [hx])
    have h := ih (index + 1) hr (by omega)
    simp only [echo_loop, ha, hidx, if_true, List.mapM_cons]
    cases hs : substitute_env_vars env a with
    | none => simp
    | some e =>
      cases hm : rest.mapM (substitute_env_vars env) with
      | none =>
        rw [hm] at h
        cases hl : echo_loop env (index + 1) rest with
        | none => simp
        | some l => rw [hl] at h; simp at h
      | some es =>
        rw [hm] at h
        cases hl : echo_loop env (index + 1) rest with
        | none => rw [hl] at h; simp at h
        | some l =>
          rw [hl] at h
          simp only [Option.map_some', Option.some.injEq] at h
          simp [stdout_text_append, stdout_text, h]

theorem echo_loop_only_stdout (env : Env) : ∀ (args : List CStr) (index : Nat)
    (evs : List Event), (∀ a ∈ args, a.length < MAX_INPUT) →
    echo_loop env index args = some evs → ∀ e ∈ evs, ∃ t, e = Event.stdout t := by
  intro args
  induction args with
  | nil =>
    intro index evs _ h
    simp only [echo_loop, Option.some.injEq] at h
    subst h
    simp
  | cons a rest ih =>
    intro index evs hlen h
    have ha : a.length < MAX_INPUT := hlen a (by simp)
    have hr : ∀ x ∈ rest, x.length < MAX_INPUT := fun x hx => hlen x (by simp [hx])
    simp only [echo_loop, ha, if_true] at h
    cases hs : substitute_env_vars env a with
    | none => simp [hs] at h
    | some b =>
      cases hl : echo_loop env (index + 1) rest with
      | none => simp [hs, hl] at h
      | some l =>
        simp only [hs, hl, Option.map_some', Option.some.injEq] at h
        subst h
        intro e he
        simp only [List.mem_append] at he
        rcases he with (h1 | h1) | h1
        · split at h1
          · simp only [List.mem_singleton] at h1
            exact ⟨_, h1⟩
          · simp at h1
        · simp only [List.mem_singleton] at h1
          exact ⟨_, h1⟩
        · exact ih (index + 1) l hr hl e h1

/-! ## Variable expansion: C1, C2, C3 -/

/-- C1 (code defect). The claim wants `$FOO!` with `FOO` unset to become `!`.
The expansion is assembled in the local buffer but copied back at the advanced
`command` pointer, behind the last reference: the caller's string is still
`$FOO!`, and `$X` with `X=1` becomes `$X1`. -/
theorem C1_reference_left_in_place :
    substitute_env_vars [] "$FOO!".toList = some "$FOO!".toList
    ∧ expand_buffer [] "$FOO!".toList = some ("!".toList, 4)
    ∧ substitute_env_vars [("X".toList, "1".toList)] "$X".toList = some "$X1".toList := by
  decide

/-- C2, as stated, fails: `a$ b` does not come back as `a$ b`. -/
theorem C2_counterexample :
    substitute_env_vars [] "a$ b".toList = some "a$a b".toList
    ∧ substitute_env_vars [] "a$ b".toList ≠ some "a$ b".toList := by
  decide

/-- C2 (amended). A `$` followed by the end of the string or by a character
that is not alphanumeric/underscore is not copied into the expansion assembled
in the working buffer: the text is `pre`, the value of the empty-named
variable (empty when unset), then the text assembled for what follows. -/
theorem C2_lone_dollar_not_copied (env : Env) (pre rest r : CStr) (k : Nat)
    (hpre : '$' ∉ pre) (hrest : ∀ c ∈ rest.head?, is_name_char c = false)
    (hr : expand_buffer env rest = some (r, k))
    (hfit : pre.length + ((getenv env []).getD []).length + r.length < MAX_INPUT) :
    expand_buffer env (pre ++ '$' :: rest) =
      some (pre ++ (getenv env []).getD [] ++ r, pre.length + 1 + k) := by
  have h := @expand_buffer_reference env pre [] rest r k hpre (by simp) hrest
    (by simp [VAR_NAME_SIZE]) hr hfit
  simpa using h

theorem C2_lone_dollar_not_copied_witness :
    expand_buffer [] ("a".toList ++ '$' :: " b".toList) = some ("a".toList ++ [] ++ " b".toList, 1 + 1 + 0) :=
  C2_lone_dollar_not_copied [] "a".toList " b".toList " b".toList 0 (by decide)
    (by simp [is_name_char]) (by decide) (by decide)

/-- C3. A string without `$`, shorter than the working buffer, is returned
unchanged, so expanding it twice is the same as expanding it once. -/
theorem C3_no_dollar_identity (env : Env) (s : CStr) (h : '$' ∉ s)
    (hlen : s.length < MAX_INPUT) :
    substitute_env_vars env s = some s
    ∧ (substitute_env_vars env s).bind (substitute_env_vars env) = substitute_env_vars env s := by
  have h1 := substitute_no_dollar env h hlen
  exact ⟨h1, by simp [h1]⟩

theorem C3_no_dollar_identity_witness :
    substitute_env_vars [("X".toList, "1".toList)] "a b".toList = some "a b".toList
    ∧ (substitute_env_vars [("X".toList, "1".toList)] "a b".toList).bind
        (substitute_env_vars [("X".toList, "1".toList)])
      = substitute_env_vars [("X".toList, "1".toList)] "a b".toList :=
  C3_no_dollar_identity [("X".toList, "1".toList)] "a b".toList (by decide) (by decide)

/-! ## Tokens and directives: C4, C5, C6 -/

/-- C4. On a line without `&`, `<`, `>` the token list is the sequence of
maximal runs of non-delimiters: every token is non-empty and free of
delimiters, the line is a sequence of words and separator runs and its tokens
are exactly those words, and replacing a non-empty run of delimiters by another
non-empty run of delimiters leaves the token list unchanged. -/
theorem C4_tokens_are_maximal_runs (os : OS) (line : CStr)
    (h1 : '&' ∉ line) (h2 : '<' ∉ line) (h3 : '>' ∉ line) :
    ∃ toks, parse os line = Parsed.command false STDIN_FILENO STDOUT_FILENO toks []
      ∧ (∀ t ∈ toks, t ≠ [] ∧ ∀ c ∈ t, is_delim c = false)
      ∧ (∃ lead ws, (∀ c ∈ lead, is_delim c = true) ∧ Separated ws
          ∧ line = lead ++ join_words ws)
      ∧ (∀ lead ws, (∀ c ∈ lead, is_delim c = true) → Separated ws →
          line = lead ++ join_words ws → toks = ws.map Prod.fst)
      ∧ (∀ a d1 d2 b, line = a ++ d1 ++ b → d1 ≠ [] → d2 ≠ [] →
          (∀ c ∈ d1, is_delim c = true) → (∀ c ∈ d2, is_delim c = true) →
          parse os (a ++ d2 ++ b)
            = Parsed.command false STDIN_FILENO STDOUT_FILENO toks []) := by
  refine ⟨tokenize line, parse_plain os h1 h2 h3, fun t ht => tokenize_words ht,
    exists_words line, ?_, ?_⟩
  · intro lead ws hl hs he
    rw [he]
    exact tokenize_join hs hl
  · intro a d1 d2 b he hn1 hn2 hd1 hd2
    have hmem : ∀ c ∈ a ++ d2 ++ b, c = '&' ∨ c = '<' ∨ c = '>' → c ∈ line := by
      intro c hc hsp
      rw [he]
      simp only [List.mem_append] at hc ⊢
      rcases hc with (hc | hc) | hc
      · exact Or.inl (Or.inl hc)
      · obtain ⟨n1, n2, n3⟩ := delim_not_directive (hd2 c hc)
        rcases hsp with e | e | e
        · exact absurd e n1
        · exact absurd e n2
        · exact absurd e n3
      · exact Or.inr hc
    have g1 : '&' ∉ a ++ d2 ++ b := fun hm => h1 (hmem _ hm (Or.inl rfl))
    have g2 : '<' ∉ a ++ d2 ++ b := fun hm => h2 (hmem _ hm (Or.inr (Or.inl rfl)))
    have g3 : '>' ∉ a ++ d2 ++ b := fun hm => h3 (hmem _ hm (Or.inr (Or.inr rfl)))
    rw [parse_plain os g1 g2 g3, he, tokenize_append_delims a b hn1 hd1,
      tokenize_append_delims a b hn2 hd2]

theorem C4_tokens_are_maximal_runs_witness :
    ('&' ∉ "echo  a   b".toList ∧ '<' ∉ "echo  a   b".toList ∧ '>' ∉ "echo  a   b".toList)
    ∧ parse bare_os "echo  a   b".toList
        = Parsed.command false STDIN_FILENO STDOUT_FILENO
            ["echo".toList, "a".toList, "b".toList] [] := by
  refine ⟨by decide, ?_⟩
  obtain ⟨toks, hp, _, _, hw, _⟩ :=
    C4_tokens_are_maximal_runs bare_os "echo  a   b".toList (by decide) (by decide) (by decide)
  rw [hp, hw [] [("echo".toList, "  ".toList), ("a".toList, "   ".toList), ("b".toList, [])]
    (by simp) (by simp [Separated, is_delim, delims]) (by decide)]
  rfl

/-- C5. A line containing `&` is parsed as the text before its first `&` with
the background flag set, and runs as that parsed line does: what follows the
first `&` has no effect. -/
theorem C5_background_cuts_line (os : OS) (env : Env) (line : CStr) (h : '&' ∈ line) :
    ∃ pre suf, line = pre ++ '&' :: suf ∧ '&' ∉ pre
      ∧ parse os line = (parse os pre).set_background
      ∧ parse_and_execute os env line = execute_parsed os env (parse os pre).set_background
      ∧ ∀ suf2, parse os (pre ++ '&' :: suf2) = parse os line
          ∧ parse_and_execute os env (pre ++ '&' :: suf2) = parse_and_execute os env line := by
  obtain ⟨pre, suf, he, hn⟩ := mem_split h
  have key : ∀ s, parse os (pre ++ '&' :: s) = (parse os pre).set_background := by
    intro s
    simp only [parse, cut_background_amp hn, cut_background_no_amp hn]
    cases redirect_input os pre with
    | abort e => rfl
    | go l2 fd1 e1 =>
      simp only []
      cases redirect_output os l2 with
      | abort e => rfl
      | go l3 fd2 e2 => rfl
  refine ⟨pre, suf, he, hn, ?_, ?_, ?_⟩
  · rw [he]; exact key suf
  · rw [he]; simp only [parse_and_execute, key suf]
  · intro suf2
    rw [he]
    simp only [parse_and_execute, key suf, key suf2, and_self]

theorem C5_background_cuts_line_witness :
    '&' ∈ "ls & rm x > y".toList
    ∧ ∃ pre suf, "ls & rm x > y".toList = pre ++ '&' :: suf ∧ '&' ∉ pre
      ∧ parse easy_os "ls & rm x > y".toList = (parse easy_os pre).set_background
      ∧ parse_and_execute easy_os [] "ls & rm x > y".toList
          = execute_parsed easy_os [] (parse easy_os pre).set_background
      ∧ ∀ suf2, parse easy_os (pre ++ '&' :: suf2) = parse easy_os "ls & rm x > y".toList
          ∧ parse_and_execute easy_os [] (pre ++ '&' :: suf2)
              = parse_and_execute easy_os [] "ls & rm x > y".toList :=
  ⟨by decide, C5_background_cuts_line easy_os [] "ls & rm x > y".toList (by decide)⟩

/-- C6. No token of the token list contains `&`, `<` or `>`. -/
theorem C6_tokens_without_directive_chars (os : OS) (line : CStr) (bg : Bool)
    (input_fd output_fd : Int) (toks : List CStr) (evs : List Event)
    (h : parse os line = Parsed.command bg input_fd output_fd toks evs) :
    ∀ t ∈ toks, ∀ c ∈ t, c ≠ '&' ∧ c ≠ '<' ∧ c ≠ '>' := by
  obtain ⟨l3, ht, n1, n2, n3, _⟩ := parse_command_residue h
  intro t hmem c hc
  rw [ht] at hmem
  have hin := tokenize_chars hmem c hc
  refine ⟨?_, ?_, ?_⟩ <;> intro e <;> subst e
  · exact n1 hin
  · exact n2 hin
  · exact n3 hin

theorem C6_tokens_without_directive_chars_witness :
    parse easy_os "sort -r < in > out & x".toList
      = Parsed.command true 3 STDOUT_FILENO ["sort".toList, "-r".toList]
          [Event.open_read "in".toList 3]
    ∧ ∀ t ∈ ["sort".toList, "-r".toList], ∀ c ∈ t, c ≠ '&' ∧ c ≠ '<' ∧ c ≠ '>' :=
  ⟨by decide, C6_tokens_without_directive_chars easy_os "sort -r < in > out & x".toList
    true 3 STDOUT_FILENO ["sort".toList, "-r".toList] [Event.open_read "in".toList 3]
    (by decide)⟩

/-! ## Redirection syntax errors: C7 -/

/-- C7, as stated, fails: in `cmd < in >` the `>` has no file name after it,
yet no syntax error is reported and `cmd` is started. -/
theorem C7_counterexample :
    parse_and_execute easy_os [] "cmd < in >".toList
      = some ⟨[], [Event.open_read "in".toList 3, Event.dup2 3 0, Event.close 3,
          Event.spawn SpawnMode.P_WAIT "cmd".toList ["cmd".toList] 100, Event.close 3]⟩ := by
  decide

/-- C7 (amended). The markers examined are the first `<` before any `&` and
the first `>` before that `<` (or before the `&` or the end). When the
examined `<` is followed only by blanks up to the `&` or the end, or the
examined `>` is followed only by blanks up to the `<` (whose file opens), the
`&` or the end, a syntax error is reported, nothing is run and the environment
is unchanged. -/
theorem C7_missing_filename_aborts (os : OS) (env : Env) (line cmd ws tail : CStr)
    (hamp : '&' ∉ cmd) (hlt : '<' ∉ cmd) (hws : ∀ c ∈ ws, is_delim c = true)
    (hcase :
      (line = cmd ++ '<' :: (ws ++ tail) ∧ (tail = [] ∨ tail.head? = some '&'))
      ∨ (line = cmd ++ '>' :: (ws ++ tail) ∧ '>' ∉ cmd
          ∧ (tail = [] ∨ tail.head? = some '&'))
      ∨ (∃ ws2 f tail2, line = cmd ++ '>' :: (ws ++ '<' :: (ws2 ++ f ++ tail2))
          ∧ '>' ∉ cmd ∧ (∀ c ∈ ws2, is_delim c = true) ∧ f ≠ []
          ∧ (∀ c ∈ f, is_delim c = false ∧ c ≠ '&')
          ∧ (∀ c ∈ tail2.head?, is_delim c = true ∨ c = '&')
          ∧ os.open_read f ≠ -1)) :
    ∃ evs msg, parse_and_execute os env line = some ⟨env, evs⟩
      ∧ Event.stderr msg ∈ evs ∧ (msg = no_input_file ∨ msg = no_output_file)
      ∧ ∀ e ∈ evs, (e = Event.stderr msg ∨ ∃ f, e = Event.open_read f (os.open_read f))
          ∧ e.is_spawn = false ∧ e.is_builtin = false := by
  obtain ⟨w1, w2, w3⟩ := delims_no_directive hws
  rcases hcase with ⟨he, ht⟩ | ⟨he, hgt, ht⟩ | ⟨ws2, f, tail2, he, hgt, hws2, hf, hfc, ht2, hopen⟩
  · have hx : '&' ∉ cmd ++ '<' :: ws := by
      simp only [List.mem_append, List.mem_cons, not_or]
      exact ⟨hamp, by decide, w1⟩
    have hcut : (cut_background line).2 = cmd ++ '<' :: ws := by
      have e2 : line = (cmd ++ '<' :: ws) ++ tail := by rw [he]; simp
      rw [e2, cut_background_append hx, cut_background_end ht, List.append_nil]
    refine ⟨[Event.stderr no_input_file], no_input_file, ?_, by simp, Or.inl rfl, ?_⟩
    · simp [parse_and_execute, parse, hcut, redirect_input_missing os hlt hws, execute_parsed]
    · simp [Event.is_spawn, Event.is_builtin]
  · have hx : '&' ∉ cmd ++ '>' :: ws := by
      simp only [List.mem_append, List.mem_cons, not_or]
      exact ⟨hamp, by decide, w1⟩
    have hy : '<' ∉ cmd ++ '>' :: ws := by
      simp only [List.mem_append, List.mem_cons, not_or]
      exact ⟨hlt, by decide, w2⟩
    have hcut : (cut_background line).2 = cmd ++ '>' :: ws := by
      have e2 : line = (cmd ++ '>' :: ws) ++ tail := by rw [he]; simp
      rw [e2, cut_background_append hx, cut_background_end ht, List.append_nil]
    refine ⟨[Event.stderr no_output_file], no_output_file, ?_, by simp, Or.inr rfl, ?_⟩
    · simp [parse_and_execute, parse, hcut, redirect_input_none os hy,
        redirect_output_missing os hgt hws, execute_parsed]
    · simp [Event.is_spawn, Event.is_builtin]
  · have hfa : '&' ∉ f := fun hm => (hfc _ hm).2 rfl
    have hx : '&' ∉ cmd ++ '>' :: (ws ++ '<' :: (ws2 ++ f)) := by
      simp only [List.mem_append, List.mem_cons, not_or]
      exact ⟨hamp, by decide, w1, by decide, (delims_no_directive hws2).1, hfa⟩
    have hy : '<' ∉ cmd ++ '>' :: ws := by
      simp only [List.mem_append, List.mem_cons, not_or]
      exact ⟨hlt, by decide, w2⟩
    have hcut : (cut_background line).2
        = (cmd ++ '>' :: ws) ++ '<' :: (ws2 ++ (f ++ (cut_background tail2).2)) := by
      have e2 : line = (cmd ++ '>' :: (ws ++ '<' :: (ws2 ++ f))) ++ tail2 := by
        rw [he]; simp
      rw [e2, cut_background_append hx]
      simp
    have htok : strtok (ws2 ++ (f ++ (cut_background tail2).2))
        = some (f, (cut_background tail2).2.tail) := by
      rw [strtok_delims hws2]
      exact strtok_word hf (fun c hc => (hfc c hc).1) (cut_background_head ht2)
    refine ⟨[Event.open_read f (os.open_read f), Event.stderr no_output_file],
      no_output_file, ?_, by simp, Or.inr rfl, ?_⟩
    · have hp : parse os line
          = Parsed.abort [Event.open_read f (os.open_read f), Event.stderr no_output_file] := by
        unfold parse
        rw [hcut, redirect_input_opened os hy htok hopen]
        simp only []
        rw [redirect_output_missing os hgt hws]
        rfl
      simp [parse_and_execute, hp, execute_parsed]
    · simp [Event.is_spawn, Event.is_builtin]

theorem C7_missing_filename_aborts_witness :
    ∃ evs msg, parse_and_execute easy_os [("X".toList, "1".toList)] "sort > < in & x".toList
        = some ⟨[("X".toList, "1".toList)], evs⟩
      ∧ Event.stderr msg ∈ evs ∧ (msg = no_input_file ∨ msg = no_output_file)
      ∧ ∀ e ∈ evs, (e = Event.stderr msg ∨ ∃ f, e = Event.open_read f (easy_os.open_read f))
          ∧ e.is_spawn = false ∧ e.is_builtin = false :=
  C7_missing_filename_aborts easy_os [("X".toList, "1".toList)] "sort > < in & x".toList
    "sort ".toList " ".toList [] (by decide) (by decide) (by decide)
    (Or.inr (Or.inr ⟨" ".toList, "in".toList, " & x".toList, by decide, by decide, by decide,
      by decide, by decide, by simp [is_delim, delims], by decide⟩))

/-! ## The token array: C8 -/

/-- C8 (code defect). A line of 64 one-letter words is 128 characters long and
yields 64 tokens: with the sentinel, 65 entries are written into the 64-entry
`args`, one past its end. -/
theorem C8_sixty_four_words_overflow :
    (words_line 64).length ≤ 1023
    ∧ (tokenize (words_line 64)).length + 1 = 65
    ∧ store_args (tokenize (words_line 64)) = none
    ∧ ∀ (os : OS) (env : Env), parse_and_execute os env (words_line 64) = none := by
  have h1 : (tokenize (words_line 64)).length + 1 = 65 := by
    rw [tokenize_words_line, List.length_replicate]
  have h2 : store_args (tokenize (words_line 64)) = none := by
    simp only [store_args, MAX_ARGS]
    rw [if_neg (by omega)]
  refine ⟨by rw [length_words_line]; omega, h1, h2, ?_⟩
  intro os env
  have hc := words_line_chars 64
  have hp := @parse_plain os (words_line 64)
    (fun h => by rcases hc _ h with e | e <;> simp at e)
    (fun h => by rcases hc _ h with e | e <;> simp at e)
    (fun h => by rcases hc _ h with e | e <;> simp at e)
  simp only [parse_and_execute, hp, execute_parsed, h2]

/-! ## Dispatch: C9 -/

/-- C9. For a line whose token list `t :: ts` is held in `args`: when `t` is
`cd`, `pwd`, `set`, `unset` or `echo`, that built-in runs on the whole token
list and nothing is spawned; for any other `t` no built-in runs and exactly one
`_spawnvp` is made, with program `t` and argument vector `t :: ts`. -/
theorem C9_dispatch_on_first_token (os : OS) (env : Env) (line : CStr) (bg : Bool)
    (input_fd output_fd : Int) (t : CStr) (ts : List CStr) (evs : List Event)
    (hp : parse os line = Parsed.command bg input_fd output_fd (t :: ts) evs)
    (hfit : (t :: ts).length < MAX_ARGS) :
    (t = "cd".toList → parse_and_execute os env line
        = some ⟨env, evs ++ handle_cd os (t :: ts) ++ close_redirections input_fd output_fd⟩)
    ∧ (t = "pwd".toList → parse_and_execute os env line
        = some ⟨env, evs ++ handle_pwd os ++ close_redirections input_fd output_fd⟩)
    ∧ (t = "set".toList → parse_and_execute os env line
        = some ⟨(handle_set env (t :: ts)).1,
            evs ++ (handle_set env (t :: ts)).2 ++ close_redirections input_fd output_fd⟩)
    ∧ (t = "unset".toList → parse_and_execute os env line
        = some ⟨(handle_unset env (t :: ts)).1,
            evs ++ (handle_unset env (t :: ts)).2 ++ close_redirections input_fd output_fd⟩)
    ∧ (t = "echo".toList → parse_and_execute os env line
        = (handle_echo env (t :: ts)).map
            (fun out => ⟨env, evs ++ out ++ close_redirections input_fd output_fd⟩))
    ∧ (t ∈ builtin_names → ∀ out, parse_and_execute os env line = some out →
        ∀ e ∈ out.events, e.is_spawn = false)
    ∧ (t ∉ builtin_names →
        parse_and_execute os env line
          = some ⟨env, evs ++ execute_command os (t :: ts) bg input_fd output_fd
              ++ close_redirections input_fd output_fd⟩
        ∧ (evs ++ execute_command os (t :: ts) bg input_fd output_fd
              ++ close_redirections input_fd output_fd).filter Event.is_spawn
            = [Event.spawn (if bg then SpawnMode.P_NOWAIT else SpawnMode.P_WAIT) t (t :: ts)
                (os.spawnvp (if bg then SpawnMode.P_NOWAIT else SpawnMode.P_WAIT) t (t :: ts))]
        ∧ ∀ e ∈ evs ++ execute_command os (t :: ts) bg input_fd output_fd
              ++ close_redirections input_fd output_fd, e.is_builtin = false) := by
  have hstore : store_args (t :: ts) = some (t :: ts) := by
    unfold store_args
    rw [if_pos (by omega)]
  have hrun : parse_and_execute os env line
      = (dispatch os env (t :: ts) bg input_fd output_fd).map
          (fun r => ⟨r.1, evs ++ r.2 ++ close_redirections input_fd output_fd⟩) := by
    simp only [parse_and_execute, hp, execute_parsed, hstore]
    cases dispatch os env (t :: ts) bg input_fd output_fd with
    | none => rfl
    | some r => rfl
  have hcd : t = "cd".toList → parse_and_execute os env line
      = some ⟨env, evs ++ handle_cd os (t :: ts) ++ close_redirections input_fd output_fd⟩ := by
    intro ht; subst ht; rw [hrun]; rfl
  have hpwd : t = "pwd".toList → parse_and_execute os env line
      = some ⟨env, evs ++ handle_pwd os ++ close_redirections input_fd output_fd⟩ := by
    intro ht; subst ht; rw [hrun]; rfl
  have hset : t = "set".toList → parse_and_execute os env line
      = some ⟨(handle_set env (t :: ts)).1,
          evs ++ (handle_set env (t :: ts)).2 ++ close_redirections input_fd output_fd⟩ := by
    intro ht; subst ht; rw [hrun]; rfl
  have hunset : t = "unset".toList → parse_and_execute os env line
      = some ⟨(handle_unset env (t :: ts)).1,
          evs ++ (handle_unset env (t :: ts)).2 ++ close_redirections input_fd output_fd⟩ := by
    intro ht; subst ht; rw [hrun]; rfl
  have hecho : t = "echo".toList → parse_and_execute os env line
      = (handle_echo env (t :: ts)).map
          (fun out => ⟨env, evs ++ out ++ close_redirections input_fd output_fd⟩) := by
    intro ht; subst ht; rw [hrun]
    simp only [dispatch, List.headD_cons]
    rw [if_pos trivial]
    cases handle_echo env ("echo".toList :: ts) with
    | none => rfl
    | some out => rfl
  have hpe := parse_command_events hp
  have hcl := close_redirections_events input_fd output_fd
  have hwrap : ∀ (mid : List Event), (∀ e ∈ mid, e.is_spawn = false) →
      ∀ e ∈ evs ++ mid ++ close_redirections input_fd output_fd, e.is_spawn = false := by
    intro mid hmid e he
    simp only [List.mem_append] at he
    rcases he with (h | h) | h
    · exact (hpe e h).1
    · exact hmid e h
    · exact (hcl e h).1
  refine ⟨hcd, hpwd, hset, hunset, hecho, ?_, ?_⟩
  · intro hb out hout
    simp only [builtin_names, List.mem_cons, List.mem_singleton, List.not_mem_nil,
      or_false] at hb
    rcases hb with h | h | h | h | h
    · rw [hcd h] at hout
      simp only [Option.some.injEq] at hout
      subst hout
      exact hwrap _ (handle_cd_events os _)
    · rw [hpwd h] at hout
      simp only [Option.some.injEq] at hout
      subst hout
      exact hwrap _ (handle_pwd_events os)
    · rw [hset h] at hout
      simp only [Option.some.injEq] at hout
      subst hout
      exact hwrap _ (handle_set_events env _)
    · rw [hunset h] at hout
      simp only [Option.some.injEq] at hout
      subst hout
      exact hwrap _ (handle_unset_events env _)
    · rw [hecho h] at hout
      cases he : handle_echo env (t :: ts) with
      | none => simp [he] at hout
      | some l =>
        simp only [he, Option.map_some', Option.some.injEq] at hout
        subst hout
        exact hwrap _ (handle_echo_events env _ _ he)
  · intro hb
    simp only [builtin_names, List.mem_cons, List.mem_singleton, List.not_mem_nil,
      or_false, not_or] at hb
    obtain ⟨n1, n2, n3, n4, n5⟩ := hb
    obtain ⟨hs1, hs2⟩ := execute_command_spawns os (t :: ts) bg input_fd output_fd
    refine ⟨?_, ?_, ?_⟩
    · rw [hrun]
      simp only [dispatch, List.headD_cons]
      rw [if_neg n1, if_neg n2, if_neg n3, if_neg n4, if_neg n5]
      rfl
    · simp only [List.filter_append, hs1, List.headD_cons]
      rw [filter_spawn_none (fun e he => (hpe e he).1),
        filter_spawn_none (fun e he => (hcl e he).1)]
      rfl
    · intro e he
      simp only [List.mem_append] at he
      rcases he with (h | h) | h
      · exact (hpe e h).2
      · exact hs2 e h
      · exact (hcl e h).2

theorem C9_dispatch_on_first_token_witness :
    parse easy_os "ls -l > out".toList
      = Parsed.command false STDIN_FILENO 4 ["ls".toList, "-l".toList]
          [Event.open_write "out".toList 4]
    ∧ ["ls".toList, "-l".toList].length < MAX_ARGS
    ∧ parse_and_execute easy_os [] "ls -l > out".toList
      = some ⟨[], [Event.open_write "out".toList 4]
          ++ execute_command easy_os ["ls".toList, "-l".toList] false STDIN_FILENO 4
          ++ close_redirections STDIN_FILENO 4⟩ :=
  ⟨by decide, by decide,
    ((C9_dispatch_on_first_token easy_os [] "ls -l > out".toList false STDIN_FILENO 4
      "ls".toList ["-l".toList] [Event.open_write "out".toList 4]
      (by decide) (by decide)).2.2.2.2.2.2 (by decide)).1⟩

/-! ## The `echo` built-in: C10 -/

/-- C10. For tokens shorter than 1024 characters, `echo a1 .. an` writes to
standard output the results of `substitute_env_vars` on `a1`, .., `an`,
separated by single spaces and followed by a newline (just the newline when
there is no argument), and writes nothing else. -/
theorem C10_echo_output (env : Env) (cmd : CStr) (args : List CStr)
    (h : ∀ a ∈ args, a.length < MAX_INPUT) :
    (handle_echo env (cmd :: args)).map stdout_text
      = (args.mapM (substitute_env_vars env)).map
          (fun es => List.intercalate [' '] es ++ ['\n'])
    ∧ ∀ evs, handle_echo env (cmd :: args) = some evs → ∀ e ∈ evs, ∃ t, e = Event.stdout t := by
  constructor
  · cases args with
    | nil => rw [List.mapM_nil]; rfl
    | cons a rest =>
      have ha : a.length < MAX_INPUT := h a (by simp)
      have hr : ∀ x ∈ rest, x.length < MAX_INPUT := fun x hx => h x (by simp [hx])
      have ht := echo_loop_text env rest 2 hr (by omega)
      simp only [handle_echo, List.drop_succ_cons, List.drop_zero, echo_loop, ha, if_true,
        List.mapM_cons, Nat.lt_irrefl, if_false, List.nil_append]
      cases hs : substitute_env_vars env a with
      | none => simp
      | some e =>
        cases hm : rest.mapM (substitute_env_vars env) with
        | none =>
          rw [hm] at ht
          cases hl : echo_loop env 2 rest with
          | none => simp
          | some l => rw [hl] at ht; simp at ht
        | some es =>
          rw [hm] at ht
          cases hl : echo_loop env 2 rest with
          | none => rw [hl] at ht; simp at ht
          | some l =>
            rw [hl] at ht
            simp only [Option.map_some', Option.some.injEq] at ht
            simp [stdout_text_append, stdout_text, ht, intercalate_cons]
  · intro evs hev e he
    unfold handle_echo at hev
    simp only [List.drop_succ_cons, List.drop_zero] at hev
    cases hl : echo_loop env 1 args with
    | none => rw [hl] at hev; simp at hev
    | some l =>
      rw [hl] at hev
      simp only [Option.map_some', Option.some.injEq] at hev
      subst hev
      rcases List.mem_append.1 he with h1 | h1
      · exact echo_loop_only_stdout env args 1 l h hl e h1
      · simp only [List.mem_singleton] at h1
        exact ⟨_, h1⟩

theorem C10_echo_output_witness :
    (∀ a ∈ ["hi".toList, "$X".toList], a.length < MAX_INPUT)
    ∧ (handle_echo [("X".toList, "1".toList)] ("echo".toList :: ["hi".toList, "$X".toList])).map
          stdout_text
        = (["hi".toList, "$X".toList].mapM (substitute_env_vars [("X".toList, "1".toList)])).map
            (fun es => List.intercalate [' '] es ++ ['\n']) :=
  ⟨by decide, (C10_echo_output [("X".toList, "1".toList)] "echo".toList
    ["hi".toList, "$X".toList] (by decide)).1⟩

/-! ## Built-ins on the environment: C11, C12, C13 -/

/-- C11 (code defect, the one of C1). After `set X 1` the variable holds `1`,
but `echo $X` prints `$X1`: the expansion `1` is copied back behind the
reference instead of replacing it. -/
theorem C11_set_then_echo_keeps_reference :
    parse_and_execute easy_os [] "set X 1\n".toList
      = some ⟨[("X".toList, "1".toList)], [Event.putenv "X".toList "1".toList]⟩
    ∧ (parse_and_execute easy_os [("X".toList, "1".toList)] "echo $X\n".toList).map
        (fun o => stdout_text o.events) = some "$X1\n".toList
    ∧ (main (fun _ => easy_os) [] "set X 1\necho $X\n".toList).map
        (fun o => stdout_text o.events) = some "xsh# xsh# $X1\nxsh# ".toList := by
  decide

/-- C12 (code defect, the one of C1). After `unset X` the variable is gone and
its expansion is empty, but `echo $X` prints `$X`, not an empty line: the
empty expansion is copied back behind the reference. -/
theorem C12_unset_then_echo_keeps_reference :
    (parse_and_execute easy_os [("X".toList, "1".toList)] "unset X\n".toList).map
        (fun o => o.env) = some []
    ∧ expand_buffer [] "$X".toList = some ([], 2)
    ∧ (parse_and_execute easy_os [] "echo $X\n".toList).map
        (fun o => stdout_text o.events) = some "$X\n".toList
    ∧ (main (fun _ => easy_os) [("X".toList, "1".toList)] "unset X\necho $X\n".toList).map
        (fun o => stdout_text o.events) = some "xsh# xsh# $X\nxsh# ".toList := by
  decide

/-- C13. `set` with fewer than two arguments and `unset` without argument
write their usage message to the error stream and leave the environment as it
is, also when reached through the dispatch of `parse_and_execute`. -/
theorem C13_usage_errors (os : OS) (env : Env) (bg : Bool) (input_fd output_fd : Int)
    (rest : List CStr) (h : rest.length < 2) :
    handle_set env ("set".toList :: rest)
      = (env, [Event.stderr "set: expected variable and value\n".toList])
    ∧ dispatch os env ("set".toList :: rest) bg input_fd output_fd
      = some (env, [Event.stderr "set: expected variable and value\n".toList])
    ∧ handle_unset env ["unset".toList]
      = (env, [Event.stderr "unset: expected variable\n".toList])
    ∧ dispatch os env ["unset".toList] bg input_fd output_fd
      = some (env, [Event.stderr "unset: expected variable\n".toList]) := by
  have hs : handle_set env ("set".toList :: rest)
      = (env, [Event.stderr "set: expected variable and value\n".toList]) := by
    match rest, h with
    | [], _ => rfl
    | [_], _ => rfl
    | _ :: _ :: _, h => simp only [List.length_cons] at h; omega
  refine ⟨hs, ?_, rfl, ?_⟩
  · simpa [dispatch] using hs
  · simp [dispatch, handle_unset]

theorem C13_usage_errors_witness :
    ["X".toList].length < 2
    ∧ handle_set [("Y".toList, "2".toList)] ("set".toList :: ["X".toList])
      = ([("Y".toList, "2".toList)], [Event.stderr "set: expected variable and value\n".toList]) :=
  ⟨by decide, (C13_usage_errors easy_os [("Y".toList, "2".toList)] false 0 1 ["X".toList]
    (by decide)).1⟩

/-! ## Descriptors: C14, C16 -/

/-- C14 (code defect). For an external command `execute_command` closes the
redirection descriptor after `_dup2` and `parse_and_execute` closes it again:
in `cmd < in` descriptor 3 is closed twice. On the early returns nothing is
closed: a redirection without command (` > out`) and a syntax error after an
opened input file (`cmd > < in`) leave the descriptor open. Only the built-in
path (`echo hi > out`) closes it once. -/
theorem C14_closed_twice_or_never :
    (parse_and_execute easy_os [] "cmd < in\n".toList).map (fun o => o.events)
      = some [Event.open_read "in".toList 3, Event.dup2 3 0, Event.close 3,
          Event.spawn SpawnMode.P_WAIT "cmd".toList ["cmd".toList] 100, Event.close 3]
    ∧ (parse_and_execute easy_os [] "cmd < in\n".toList).map
        (fun o => close_count 3 o.events) = some 2
    ∧ (parse_and_execute easy_os [] " > out\n".toList).map (fun o => o.events)
      = some [Event.open_write "out".toList 4]
    ∧ (parse_and_execute easy_os [] "cmd > < in\n".toList).map (fun o => o.events)
      = some [Event.open_read "in".toList 3, Event.stderr no_output_file]
    ∧ (parse_and_execute easy_os [] "echo hi > out\n".toList).map (fun o => o.events)
      = some [Event.open_write "out".toList 4, Event.stdout "hi".toList,
          Event.stdout ['\n'], Event.close 4] := by
  decide

/-- C16 (code defect). `execute_command` calls `_dup2` in the interpreter
itself and nothing undoes it: after `ls > out` descriptor 1 of the interpreter
is the file `out`, after `sort < in` descriptor 0 is the file `in`, and in the
session `ls > out`, `echo hi` the output of `echo` and the prompts land in
`out`. -/
theorem C16_streams_stay_redirected :
    (initial_world (fun _ => none)).fds 1 = Stream.std 1
    ∧ (parse_and_execute easy_os [] "ls > out\n".toList).map
        (fun o => ((initial_world (fun _ => none)).run (child_writes "f\n".toList) o.events).fds 1)
      = some (Stream.file "out".toList)
    ∧ (parse_and_execute easy_os [] "sort < in\n".toList).map
        (fun o => ((initial_world (fun _ => none)).run (child_writes []) o.events).fds 0)
      = some (Stream.file "in".toList)
    ∧ (main (fun _ => easy_os) [] "ls > out\necho hi\n".toList).map
        (fun o => ((initial_world (fun _ => none)).run (child_writes "f\n".toList) o.events).files
          "out".toList)
      = some (some "f\nxsh# hi\nxsh# ".toList) := by
  decide

/-! ## The working buffer: C18 -/

theorem expand_twice_overflow (v : CStr) (h1 : v.length < MAX_INPUT)
    (h2 : MAX_INPUT ≤ v.length + v.length) :
    expand_buffer [("X".toList, v)] "$X$X".toList = none := by
  have s1 : strchr "$X$X".toList '$' = some ([], "X$X".toList) := by decide
  have s2 : strchr "$X".toList '$' = some ([], "X".toList) := by decide
  have t1 : "X$X".toList.takeWhile is_name_char = "X".toList := by decide
  have d1 : "X$X".toList.dropWhile is_name_char = "$X".toList := by decide
  have t2 : "X".toList.takeWhile is_name_char = "X".toList := by decide
  have g : getenv [("X".toList, v)] "X".toList = some v := by simp [getenv]
  have hv : ([] : CStr).length + ([] : CStr).length + v.length < MAX_INPUT
      ∧ "X".toList.length < VAR_NAME_SIZE := ⟨by simpa using h1, by decide⟩
  have hn : ¬ (([] ++ [] ++ v : CStr).length + ([] : CStr).length + v.length < MAX_INPUT
      ∧ "X".toList.length < VAR_NAME_SIZE) := by
    intro h
    have := h.1
    simp only [List.nil_append, List.length_nil, Nat.add_zero] at this
    omega
  unfold expand_buffer
  rw [show "$X$X".toList.length + 1 = 3 + 1 + 1 from rfl,
    subst_loop_step _ (3 + 1) [] 0 s1, t1, d1, g, Option.getD_some, if_pos hv,
    subst_loop_step _ 3 _ _ s2, t2, g, Option.getD_some, if_neg hn]

/-- C18 (code defect). Nothing bounds the length of the expansion: with `X`
holding 600 characters the four-character token `$X$X` needs 1200 characters
and the second `strcat` writes past the end of `buffer[1024]`. -/
theorem C18_expansion_overflows_buffer :
    "$X$X".toList.length < MAX_INPUT
    ∧ expand_buffer [("X".toList, List.replicate 600 'a')] "$X$X".toList = none
    ∧ substitute_env_vars [("X".toList, List.replicate 600 'a')] "$X$X".toList = none := by
  have h := expand_twice_overflow (List.replicate 600 'a')
    (by rw [List.length_replicate]; decide) (by rw [List.length_replicate]; decide)
  exact ⟨by decide, h, by simp only [substitute_env_vars, h]⟩

/-! ## Lemmas on dispatch -/

theorem parse_and_execute_command {os : OS} (env : Env) {line : CStr} {bg : Bool}
    {i o : Int} {t : CStr} {ts : List CStr} {evs : List Event}
    (hp : parse os line = Parsed.command bg i o (t :: ts) evs)
    (hfit : (t :: ts).length < MAX_ARGS) :
    parse_and_execute os env line
      = (dispatch os env (t :: ts) bg i o).map
          (fun r => ⟨r.1, evs ++ r.2 ++ close_redirections i o⟩) := by
  have hstore : store_args (t :: ts) = some (t :: ts) := by
    unfold store_args
    rw [if_pos (by omega)]
  simp only [parse_and_execute, hp, execute_parsed, hstore]
  cases dispatch os env (t :: ts) bg i o with
  | none => rfl
  | some r => rfl

theorem dispatch_external (os : OS) (env : Env) {t : CStr} (ts : List CStr) (bg : Bool)
    (i o : Int) (ht : t ∉ builtin_names) :
    dispatch os env (t :: ts) bg i o = some (env, execute_command os (t :: ts) bg i o) := by
  simp only [builtin_names, List.mem_cons, List.mem_singleton, List.not_mem_nil,
    or_false, not_or] at ht
  obtain ⟨n1, n2, n3, n4, n5⟩ := ht
  simp only [dispatch, List.headD_cons]
  rw [if_neg n1, if_neg n2, if_neg n3, if_neg n4, if_neg n5]

theorem cut_background_flag (line : CStr) :
    (cut_background line).1 = decide ('&' ∈ line) := by
  by_cases h : '&' ∈ line
  · obtain ⟨pre, suf, he, hn⟩ := mem_split h
    rw [he, cut_background_amp hn]
    simp
  · rw [cut_background_no_amp h]
    simp [h]

theorem parse_background {os : OS} {line : CStr} {bg : Bool} {i o : Int}
    {toks : List CStr} {evs : List Event}
    (h : parse os line = Parsed.command bg i o toks evs) : bg = decide ('&' ∈ line) := by
  unfold parse at h
  cases hi : redirect_input os (cut_background line).2 with
  | abort e => simp [hi] at h
  | go l2 fd1 e1 =>
    simp only [hi] at h
    cases ho : redirect_output os l2 with
    | abort e => simp [ho] at h
    | go l3 fd2 e2 =>
      simp only [ho, Parsed.command.injEq] at h
      rw [← h.1]
      exact cut_background_flag line

/-! ## Wait and no-wait: C17 -/

/-- C17. A line dispatched to the external launcher makes one `_spawnvp` call,
with mode `_P_NOWAIT` when the line contains `&` and `_P_WAIT` when it does
not. -/
theorem C17_spawn_mode (os : OS) (env : Env) (line : CStr) (bg : Bool)
    (input_fd output_fd : Int) (t : CStr) (ts : List CStr) (evs : List Event)
    (hp : parse os line = Parsed.command bg input_fd output_fd (t :: ts) evs)
    (hfit : (t :: ts).length < MAX_ARGS) (hext : t ∉ builtin_names) :
    ∃ out, parse_and_execute os env line = some out
      ∧ out.events.filter Event.is_spawn
        = [Event.spawn (if '&' ∈ line then SpawnMode.P_NOWAIT else SpawnMode.P_WAIT) t (t :: ts)
            (os.spawnvp (if '&' ∈ line then SpawnMode.P_NOWAIT else SpawnMode.P_WAIT)
              t (t :: ts))] := by
  have hbg := parse_background hp
  have hpe := parse_command_events hp
  have hcl := close_redirections_events input_fd output_fd
  obtain ⟨hs1, _⟩ := execute_command_spawns os (t :: ts) bg input_fd output_fd
  refine ⟨⟨env, evs ++ execute_command os (t :: ts) bg input_fd output_fd
    ++ close_redirections input_fd output_fd⟩, ?_, ?_⟩
  · rw [parse_and_execute_command env hp hfit,
      dispatch_external os env ts bg input_fd output_fd hext]
    rfl
  · simp only [List.filter_append, hs1, List.headD_cons]
    rw [filter_spawn_none (fun e he => (hpe e he).1),
      filter_spawn_none (fun e he => (hcl e he).1), hbg]
    by_cases h : '&' ∈ line <;> simp [h]

theorem C17_spawn_mode_witness :
    parse easy_os "sleep 5 &\n".toList
      = Parsed.command true STDIN_FILENO STDOUT_FILENO ["sleep".toList, "5".toList] []
    ∧ ∃ out, parse_and_execute easy_os [] "sleep 5 &\n".toList = some out
      ∧ out.events.filter Event.is_spawn
        = [Event.spawn (if '&' ∈ "sleep 5 &\n".toList then SpawnMode.P_NOWAIT
              else SpawnMode.P_WAIT) "sleep".toList ["sleep".toList, "5".toList]
            (easy_os.spawnvp (if '&' ∈ "sleep 5 &\n".toList then SpawnMode.P_NOWAIT
              else SpawnMode.P_WAIT) "sleep".toList ["sleep".toList, "5".toList])] :=
  ⟨by decide, C17_spawn_mode easy_os [] "sleep 5 &\n".toList true STDIN_FILENO STDOUT_FILENO
    "sleep".toList ["5".toList] [] (by decide) (by decide) (by decide)⟩

/-! ## Lemmas on the events of built-ins -/

theorem handle_cd_plain (os : OS) (args : List CStr) :
    ∀ e ∈ handle_cd os args, e.is_plain = true ∧ e ≠ Event.stderr argument_too_long := by
  unfold handle_cd
  split
  · split <;> simp [Event.is_plain]
  · simp only [List.mem_singleton, forall_eq]
    exact ⟨rfl, by decide⟩

theorem handle_pwd_plain (os : OS) :
    ∀ e ∈ handle_pwd os, e.is_plain = true ∧ e ≠ Event.stderr argument_too_long := by
  unfold handle_pwd
  split <;> simp [Event.is_plain]

theorem handle_set_plain (env : Env) (args : List CStr) :
    ∀ e ∈ (handle_set env args).2,
      e.is_plain = true ∧ e ≠ Event.stderr argument_too_long := by
  unfold handle_set
  split
  · simp [Event.is_plain]
  · simp only [List.mem_singleton, forall_eq]
    exact ⟨rfl, by decide⟩

theorem handle_unset_plain (env : Env) (args : List CStr) :
    ∀ e ∈ (handle_unset env args).2,
      e.is_plain = true ∧ e ≠ Event.stderr argument_too_long := by
  unfold handle_unset
  split
  · simp [Event.is_plain]
  · simp only [List.mem_singleton, forall_eq]
    exact ⟨rfl, by decide⟩

theorem echo_loop_plain (env : Env) : ∀ (args : List CStr) (index : Nat) (evs : List Event),
    echo_loop env index args = some evs → ∀ e ∈ evs, e.is_plain = true := by
  intro args
  induction args with
  | nil =>
    intro index evs h
    simp only [echo_loop, Option.some.injEq] at h
    subst h
    simp
  | cons a rest ih =>
    intro index evs h
    simp only [echo_loop] at h
    split at h
    · simp at h
    · rename_i out hout
      split at h
      · simp at h
      · rename_i more hmore
        simp only [Option.some.injEq] at h
        subst h
        have hm := ih (index + 1) more hmore
        have ho : ∀ e ∈ out, e.is_plain = true := by
          split at hout
          · cases hs : substitute_env_vars env a with
            | none => simp [hs] at hout
            | some b =>
              simp only [hs, Option.map_some', Option.some.injEq] at hout
              subst hout
              simp [Event.is_plain]
          · simp only [Option.some.injEq] at hout
            subst hout
            simp [Event.is_plain]
        intro e he
        simp only [List.mem_append] at he
        rcases he with (he | he) | he
        · split at he
          · simp only [List.mem_singleton] at he
            subst he; rfl
          · simp at he
        · exact ho e he
        · exact hm e he

theorem handle_echo_plain (env : Env) (args : List CStr) (evs : List Event)
    (h : handle_echo env args = some evs) : ∀ e ∈ evs, e.is_plain = true := by
  unfold handle_echo at h
  cases hl : echo_loop env 1 (args.drop 1) with
  | none => rw [hl] at h; simp at h
  | some l =>
    rw [hl] at h
    simp only [Option.map_some', Option.some.injEq] at h
    subst h
    intro e he
    rcases List.mem_append.1 he with h1 | h1
    · exact echo_loop_plain env _ _ _ hl e h1
    · simp only [List.mem_singleton] at h1
      subst h1; rfl

theorem dispatch_builtin_plain (os : OS) (env : Env) {t : CStr} (ts : List CStr) (bg : Bool)
    (i o : Int) (ht : t ∈ builtin_names) {r : Env × List Event}
    (h : dispatch os env (t :: ts) bg i o = some r) : ∀ e ∈ r.2, e.is_plain = true := by
  simp only [builtin_names, List.mem_cons, List.mem_singleton, List.not_mem_nil,
    or_false] at ht
  simp only [dispatch, List.headD_cons] at h
  rcases ht with e | e | e | e | e <;> subst e
  · rw [if_pos rfl] at h
    simp only [Option.some.injEq] at h
    subst h
    exact fun e he => (handle_cd_plain os _ e he).1
  · rw [if_neg (by decide), if_pos rfl] at h
    simp only [Option.some.injEq] at h
    subst h
    exact fun e he => (handle_pwd_plain os e he).1
  · rw [if_neg (by decide), if_neg (by decide), if_pos rfl] at h
    simp only [Option.some.injEq] at h
    subst h
    exact fun e he => (handle_set_plain env _ e he).1
  · rw [if_neg (by decide), if_neg (by decide), if_neg (by decide), if_pos rfl] at h
    simp only [Option.some.injEq] at h
    subst h
    exact fun e he => (handle_unset_plain env _ e he).1
  · rw [if_neg (by decide), if_neg (by decide), if_neg (by decide), if_neg (by decide),
      if_pos rfl] at h
    cases he : handle_echo env ("echo".toList :: ts) with
    | none => rw [he] at h; simp at h
    | some l =>
      rw [he] at h
      simp only [Option.map_some', Option.some.injEq] at h
      subst h
      exact handle_echo_plain env _ _ he

theorem plain_keeps_output {e : Event} (h : e.is_plain = true) :
    e.redirects_output = false ∧ e.is_open_write = false := by
  cases e <;> simp [Event.is_plain] at h <;> exact ⟨rfl, rfl⟩

/-! ## Input redirection before output redirection: C19 -/

theorem redirect_output_none (os : OS) {l : CStr} (h : '>' ∉ l) :
    redirect_output os l = Redirect.go l STDOUT_FILENO [] := by
  simp [redirect_output, strchr_eq_none h]

theorem parse_input_first (os : OS) {line pre after : CStr} (hamp : '&' ∉ line)
    (he : line = pre ++ '<' :: after) (hlt : '<' ∉ pre) (hgt : '>' ∉ pre) :
    parse os line = Parsed.abort [Event.stderr no_input_file]
    ∨ (∃ f, parse os line
        = Parsed.abort [Event.open_read f (os.open_read f), Event.perror "open".toList])
    ∨ (∃ f, parse os line
        = Parsed.command false (os.open_read f) STDOUT_FILENO (tokenize pre)
            [Event.open_read f (os.open_read f)]) := by
  have hcut := cut_background_no_amp hamp
  have hs : strchr line '<' = some (pre, after) := by rw [he]; exact strchr_append hlt after
  unfold parse
  rw [hcut]
  simp only [redirect_input, hs]
  cases ht : strtok after with
  | none => exact Or.inl rfl
  | some q =>
    obtain ⟨f, r⟩ := q
    simp only []
    by_cases ho : os.open_read f = -1
    · rw [if_pos ho]
      exact Or.inr (Or.inl ⟨f, rfl⟩)
    · rw [if_neg ho]
      simp only [redirect_output_none os hgt]
      exact Or.inr (Or.inr ⟨f, rfl⟩)

theorem execute_command_keeps_output (os : OS) (args : List CStr) (bg : Bool) (i : Int) :
    ∀ e ∈ execute_command os args bg i STDOUT_FILENO, e.redirects_output = false := by
  unfold execute_command
  simp only [List.forall_mem_append]
  refine ⟨⟨⟨?_, ?_⟩, ?_⟩, ?_⟩
  · split
    · simp [Event.redirects_output, STDIN_FILENO, STDOUT_FILENO]
    · simp
  · simp
  · simp [Event.redirects_output]
  · split <;> simp [Event.redirects_output]

theorem close_redirections_keeps_output (i o : Int) :
    ∀ e ∈ close_redirections i o, e.redirects_output = false := by
  intro e he
  unfold close_redirections at he
  rcases List.mem_append.1 he with h | h <;> split at h <;>
    simp only [List.mem_singleton, List.not_mem_nil] at h <;> subst h <;> rfl

theorem dispatch_keeps_output (os : OS) (env : Env) (t : CStr) (ts : List CStr) (bg : Bool)
    (i : Int) {r : Env × List Event}
    (h : dispatch os env (t :: ts) bg i STDOUT_FILENO = some r) :
    ∀ e ∈ r.2, e.redirects_output = false := by
  by_cases ht : t ∈ builtin_names
  · exact fun e he => (plain_keeps_output (dispatch_builtin_plain os env ts bg i _ ht h e he)).1
  · rw [dispatch_external os env ts bg i STDOUT_FILENO ht] at h
    simp only [Option.some.injEq] at h
    subst h
    exact execute_command_keeps_output os _ bg i

/-- C19. On a line without `&` whose first `<` comes before every `>`, no
output file is opened, no `_dup2` onto descriptor 1 is made, the output
descriptor of the command is standard output and the tokens are those of the
text before the `<`. Conversely an output file is opened only when a `>`
occurs before the first `<`. -/
theorem C19_output_redirection_needs_gt_first (os : OS) (env : Env) (line : CStr)
    (hamp : '&' ∉ line) :
    (∀ pre after, line = pre ++ '<' :: after → '<' ∉ pre → '>' ∉ pre →
      (∀ e ∈ (parse os line).events, e.is_open_write = false)
      ∧ (∀ bg i o toks evs, parse os line = Parsed.command bg i o toks evs →
          o = STDOUT_FILENO ∧ toks = tokenize pre)
      ∧ (∀ out, parse_and_execute os env line = some out →
          ∀ e ∈ out.events, e.redirects_output = false))
    ∧ ((∃ e ∈ (parse os line).events, e.is_open_write = true) →
        ∃ a b, line = a ++ '>' :: b ∧ '<' ∉ a ∧ '>' ∉ a) := by
  have first : ∀ pre after, line = pre ++ '<' :: after → '<' ∉ pre → '>' ∉ pre →
      (∀ e ∈ (parse os line).events, e.is_open_write = false)
      ∧ (∀ bg i o toks evs, parse os line = Parsed.command bg i o toks evs →
          o = STDOUT_FILENO ∧ toks = tokenize pre)
      ∧ (∀ out, parse_and_execute os env line = some out →
          ∀ e ∈ out.events, e.redirects_output = false) := by
    intro pre after he hlt hgt
    rcases parse_input_first os hamp he hlt hgt with hp | ⟨f, hp⟩ | ⟨f, hp⟩
    · refine ⟨?_, ?_, ?_⟩
      · rw [hp]; simp [Parsed.events, Event.is_open_write]
      · intro bg i o toks evs h; rw [hp] at h; simp at h
      · intro out h
        simp only [parse_and_execute, hp, execute_parsed, Option.some.injEq] at h
        subst h
        simp [Event.redirects_output]
    · refine ⟨?_, ?_, ?_⟩
      · rw [hp]; simp [Parsed.events, Event.is_open_write]
      · intro bg i o toks evs h; rw [hp] at h; simp at h
      · intro out h
        simp only [parse_and_execute, hp, execute_parsed, Option.some.injEq] at h
        subst h
        simp [Event.redirects_output]
    · refine ⟨?_, ?_, ?_⟩
      · rw [hp]; simp [Parsed.events, Event.is_open_write]
      · intro bg i o toks evs h
        rw [hp] at h
        simp only [Parsed.command.injEq] at h
        exact ⟨h.2.2.1.symm, h.2.2.2.1.symm⟩
      · intro out h
        simp only [parse_and_execute, hp, execute_parsed] at h
        cases hst : store_args (tokenize pre) with
        | none => rw [hst] at h; simp at h
        | some l =>
          rw [hst] at h
          cases l with
          | nil =>
            simp only [Option.some.injEq] at h
            subst h
            simp [Event.redirects_output]
          | cons t ts =>
            simp only [] at h
            cases hd : dispatch os env (t :: ts) false (os.open_read f) STDOUT_FILENO with
            | none => rw [hd] at h; simp at h
            | some r =>
              rw [hd] at h
              simp only [Option.some.injEq] at h
              subst h
              intro e he2
              simp only [List.mem_append, List.mem_singleton] at he2
              rcases he2 with (h1 | h1) | h1
              · subst h1; rfl
              · exact dispatch_keeps_output os env t ts false _ hd e h1
              · exact close_redirections_keeps_output _ _ e h1
  refine ⟨first, ?_⟩
  rintro ⟨e, hmem, hw⟩
  by_cases hl : '<' ∈ line
  · obtain ⟨pre, after, he, hlt⟩ := mem_split hl
    by_cases hg : '>' ∈ pre
    · obtain ⟨a, b, hab, hna⟩ := mem_split hg
      refine ⟨a, b ++ '<' :: after, by rw [he, hab]; simp, ?_, hna⟩
      intro hm
      exact hlt (by rw [hab]; exact List.mem_append.2 (Or.inl hm))
    · have := (first pre after he hlt hg).1 e hmem
      rw [this] at hw
      exact absurd hw (by decide)
  · by_cases hg : '>' ∈ line
    · obtain ⟨a, b, hab, hna⟩ := mem_split hg
      refine ⟨a, b, hab, ?_, hna⟩
      intro hm
      exact hl (by rw [hab]; exact List.mem_append.2 (Or.inl hm))
    · rw [parse_plain os hamp hl hg] at hmem
      simp [Parsed.events] at hmem

theorem C19_output_redirection_needs_gt_first_witness :
    '&' ∉ "cmd < in > out".toList
    ∧ parse easy_os "cmd < in > out".toList
      = Parsed.command false 3 STDOUT_FILENO ["cmd".toList] [Event.open_read "in".toList 3]
    ∧ parse easy_os "cmd > out < in".toList
      = Parsed.command false 3 4 ["cmd".toList]
          [Event.open_read "in".toList 3, Event.open_write "out".toList 4]
    ∧ ∀ out, parse_and_execute easy_os [] "cmd < in > out".toList = some out →
        ∀ e ∈ out.events, e.redirects_output = false :=
  ⟨by decide, by decide, by decide,
    ((C19_output_redirection_needs_gt_first easy_os [] "cmd < in > out".toList (by decide)).1
      "cmd ".toList " in > out".toList (by decide) (by decide) (by decide)).2.2⟩

/-! ## Lemmas on the session loop -/

theorem read_line_length : ∀ (n : Nat) (s : CStr), (read_line n s).1.length ≤ n := by
  intro n
  induction n with
  | zero => intro s; simp [read_line]
  | succ n ih =>
    intro s
    cases s with
    | nil => simp [read_line]
    | cons c cs =>
      simp only [read_line]
      split
      · simp
      · have := ih cs
        simp only [List.length_cons]
        omega

theorem read_line_rest : ∀ (n : Nat) (s : CStr), s ≠ [] →
    (read_line (n + 1) s).2.length < s.length := by
  intro n
  induction n with
  | zero =>
    intro s hs
    cases s with
    | nil => exact absurd rfl hs
    | cons c cs =>
      simp only [read_line]
      split <;> simp
  | succ n ih =>
    intro s hs
    cases s with
    | nil => exact absurd rfl hs
    | cons c cs =>
      rw [read_line]
      split
      · simp
      · cases cs with
        | nil => simp [read_line]
        | cons d ds =>
          have := ih (d :: ds) (by simp)
          simp only [List.length_cons] at this ⊢
          omega

theorem fgets_length {size : Nat} {stdin line rest : CStr}
    (h : fgets size stdin = some (line, rest)) : line.length ≤ size - 1 := by
  unfold fgets at h
  split at h
  · simp at h
  · simp only [Option.some.injEq] at h
    have := read_line_length (size - 1) stdin
    rw [h] at this
    exact this

theorem fgets_rest {stdin line rest : CStr}
    (h : fgets MAX_INPUT stdin = some (line, rest)) : rest.length < stdin.length := by
  unfold fgets at h
  split at h
  · simp at h
  · rename_i hne
    simp only [Option.some.injEq] at h
    have := read_line_rest 1022 stdin hne
    have e : MAX_INPUT - 1 = 1022 + 1 := by decide
    rw [e] at h
    rw [h] at this
    exact this

theorem length_word_le {ws : List (CStr × CStr)} {t : CStr} (ht : t ∈ ws.map Prod.fst) :
    t.length ≤ (join_words ws).length := by
  induction ws with
  | nil => simp at ht
  | cons p rest ih =>
    obtain ⟨w, d⟩ := p
    simp only [List.map_cons, List.mem_cons] at ht
    simp only [join_words, List.length_append]
    rcases ht with e | e
    · subst e; omega
    · have := ih e
      omega

theorem tokenize_length {s t : CStr} (ht : t ∈ tokenize s) : t.length ≤ s.length := by
  obtain ⟨lead, ws, hl, hs, he⟩ := exists_words s
  rw [he, tokenize_join hs hl] at ht
  have := length_word_le ht
  rw [he, List.length_append]
  omega

theorem strchr_length {s : CStr} {c : Char} {pre after : CStr}
    (h : strchr s c = some (pre, after)) : pre.length ≤ s.length := by
  rw [(strchr_some h).1, List.length_append]
  omega

theorem cut_background_length (line : CStr) :
    (cut_background line).2.length ≤ line.length := by
  unfold cut_background
  cases hr : strchr line '&' with
  | none => exact Nat.le_refl _
  | some p =>
    obtain ⟨a, b⟩ := p
    exact strchr_length hr

theorem redirect_input_length {os : OS} {l l2 : CStr} {fd : Int} {evs : List Event}
    (h : redirect_input os l = Redirect.go l2 fd evs) : l2.length ≤ l.length := by
  unfold redirect_input at h
  cases hr : strchr l '<' with
  | none =>
    simp only [hr, Redirect.go.injEq] at h
    rw [← h.1]
  | some p =>
    obtain ⟨a, b⟩ := p
    simp only [hr] at h
    cases ht : strtok b with
    | none => simp [ht] at h
    | some q =>
      obtain ⟨f, r⟩ := q
      simp only [ht] at h
      split at h
      · simp at h
      · simp only [Redirect.go.injEq] at h
        rw [← h.1]
        exact strchr_length hr

theorem redirect_output_length {os : OS} {l l2 : CStr} {fd : Int} {evs : List Event}
    (h : redirect_output os l = Redirect.go l2 fd evs) : l2.length ≤ l.length := by
  unfold redirect_output at h
  cases hr : strchr l '>' with
  | none =>
    simp only [hr, Redirect.go.injEq] at h
    rw [← h.1]
  | some p =>
    obtain ⟨a, b⟩ := p
    simp only [hr] at h
    cases ht : strtok b with
    | none => simp [ht] at h
    | some q =>
      obtain ⟨f, r⟩ := q
      simp only [ht] at h
      split at h
      · simp at h
      · simp only [Redirect.go.injEq] at h
        rw [← h.1]
        exact strchr_length hr

theorem parse_token_length {os : OS} {line : CStr} {bg : Bool} {i o : Int}
    {toks : List CStr} {evs : List Event}
    (h : parse os line = Parsed.command bg i o toks evs) :
    ∀ t ∈ toks, t.length ≤ line.length := by
  unfold parse at h
  have hb := cut_background_length line
  cases hi : redirect_input os (cut_background line).2 with
  | abort e => simp [hi] at h
  | go l2 fd1 e1 =>
    have h2 := redirect_input_length hi
    simp only [hi] at h
    cases ho : redirect_output os l2 with
    | abort e => simp [ho] at h
    | go l3 fd2 e2 =>
      have h3 := redirect_output_length ho
      simp only [ho, Parsed.command.injEq] at h
      obtain ⟨_, _, _, ht, _⟩ := h
      intro t hm
      rw [← ht] at hm
      have := tokenize_length hm
      omega

theorem redirect_input_quiet (os : OS) (l : CStr) :
    ∀ e ∈ (redirect_input os l).events, e ≠ Event.stderr argument_too_long := by
  unfold redirect_input
  split
  · simp [Redirect.events]
  · split
    · split <;> simp [Redirect.events]
    · simp only [Redirect.events, List.mem_singleton, forall_eq]
      decide

theorem redirect_output_quiet (os : OS) (l : CStr) :
    ∀ e ∈ (redirect_output os l).events, e ≠ Event.stderr argument_too_long := by
  unfold redirect_output
  split
  · simp [Redirect.events]
  · split
    · split <;> simp [Redirect.events]
    · simp only [Redirect.events, List.mem_singleton, forall_eq]
      decide

theorem parse_quiet (os : OS) (line : CStr) :
    ∀ e ∈ (parse os line).events, e ≠ Event.stderr argument_too_long := by
  unfold parse
  have hi := redirect_input_quiet os (cut_background line).2
  cases hri : redirect_input os (cut_background line).2 with
  | abort e1 =>
    rw [hri] at hi
    exact hi
  | go l2 fd1 e1 =>
    rw [hri] at hi
    have ho := redirect_output_quiet os l2
    simp only []
    cases hro : redirect_output os l2 with
    | abort e2 =>
      rw [hro] at ho
      intro e he
      simp only [Parsed.events, List.mem_append] at he
      rcases he with h | h
      · exact hi e h
      · exact ho e h
    | go l3 fd2 e2 =>
      rw [hro] at ho
      intro e he
      simp only [Parsed.events, List.mem_append] at he
      rcases he with h | h
      · exact hi e h
      · exact ho e h

theorem execute_command_quiet (os : OS) (args : List CStr) (bg : Bool) (i o : Int) :
    ∀ e ∈ execute_command os args bg i o, e ≠ Event.stderr argument_too_long := by
  unfold execute_command
  simp only [List.forall_mem_append]
  refine ⟨⟨⟨?_, ?_⟩, ?_⟩, ?_⟩ <;> (try split) <;> simp

theorem close_redirections_quiet (i o : Int) :
    ∀ e ∈ close_redirections i o, e ≠ Event.stderr argument_too_long := by
  unfold close_redirections
  simp only [List.forall_mem_append]
  refine ⟨?_, ?_⟩ <;> split <;> simp

theorem dispatch_quiet (os : OS) (env : Env) (t : CStr) (ts : List CStr) (bg : Bool)
    (i o : Int) (hlen : ∀ a ∈ ts, a.length < MAX_INPUT) {r : Env × List Event}
    (h : dispatch os env (t :: ts) bg i o = some r) :
    ∀ e ∈ r.2, e ≠ Event.stderr argument_too_long := by
  by_cases ht : t ∈ builtin_names
  · simp only [builtin_names, List.mem_cons, List.mem_singleton, List.not_mem_nil,
      or_false] at ht
    simp only [dispatch, List.headD_cons] at h
    rcases ht with e | e | e | e | e <;> subst e
    · rw [if_pos rfl] at h
      simp only [Option.some.injEq] at h
      subst h
      exact fun e he => (handle_cd_plain os _ e he).2
    · rw [if_neg (by decide), if_pos rfl] at h
      simp only [Option.some.injEq] at h
      subst h
      exact fun e he => (handle_pwd_plain os e he).2
    · rw [if_neg (by decide), if_neg (by decide), if_pos rfl] at h
      simp only [Option.some.injEq] at h
      subst h
      exact fun e he => (handle_set_plain env _ e he).2
    · rw [if_neg (by decide), if_neg (by decide), if_neg (by decide), if_pos rfl] at h
      simp only [Option.some.injEq] at h
      subst h
      exact fun e he => (handle_unset_plain env _ e he).2
    · rw [if_neg (by decide), if_neg (by decide), if_neg (by decide), if_neg (by decide),
        if_pos rfl] at h
      unfold handle_echo at h
      simp only [List.drop_succ_cons, List.drop_zero] at h
      cases hl : echo_loop env 1 ts with
      | none => rw [hl] at h; simp at h
      | some l =>
        rw [hl] at h
        simp only [Option.map_some', Option.some.injEq] at h
        subst h
        intro e he
        rcases List.mem_append.1 he with h1 | h1
        · obtain ⟨x, hx⟩ := echo_loop_only_stdout env ts 1 l hlen hl e h1
          rw [hx]; simp
        · simp only [List.mem_singleton] at h1
          rw [h1]; simp
  · rw [dispatch_external os env ts bg i o ht] at h
    simp only [Option.some.injEq] at h
    subst h
    exact execute_command_quiet os _ bg i o

theorem line_quiet (os : OS) (env : Env) {line : CStr} (hlen : line.length < MAX_INPUT)
    {out : Outcome} (h : parse_and_execute os env line = some out) :
    ∀ e ∈ out.events, e ≠ Event.stderr argument_too_long := by
  have hq := parse_quiet os line
  unfold parse_and_execute at h
  cases hp : parse os line with
  | abort evs =>
    rw [hp] at h hq
    simp only [execute_parsed, Option.some.injEq] at h
    subst h
    exact hq
  | command bg i o toks evs =>
    have htl := parse_token_length hp
    rw [hp] at h hq
    simp only [execute_parsed] at h
    cases hst : store_args toks with
    | none => rw [hst] at h; simp at h
    | some l =>
      have hl : l = toks := by
        unfold store_args at hst
        split at hst
        · simp only [Option.some.injEq] at hst
          exact hst.symm
        · simp at hst
      rw [hst] at h
      cases l with
      | nil =>
        simp only [Option.some.injEq] at h
        subst h
        exact hq
      | cons t ts =>
        simp only [] at h
        have hts : ∀ a ∈ ts, a.length < MAX_INPUT := by
          intro a ha
          have := htl a (by rw [← hl]; simp [ha])
          omega
        cases hd : dispatch os env (t :: ts) bg i o with
        | none => rw [hd] at h; simp at h
        | some r =>
          rw [hd] at h
          simp only [Option.some.injEq] at h
          subst h
          intro e he
          simp only [List.mem_append] at he
          rcases he with (h1 | h1) | h1
          · exact hq e h1
          · exact dispatch_quiet os env t ts bg i o hts hd e h1
          · exact close_redirections_quiet i o e h1

theorem main_loop_quiet (os : Nat → OS) : ∀ (fuel i : Nat) (env : Env) (stdin : CStr)
    (out : Outcome), main_loop os fuel i env stdin = some out →
    ∀ e ∈ out.events, e ≠ Event.stderr argument_too_long := by
  intro fuel
  induction fuel with
  | zero => intro i env stdin out h; simp [main_loop] at h
  | succ fuel ih =>
    intro i env stdin out h
    simp only [main_loop] at h
    cases hf : fgets MAX_INPUT stdin with
    | none =>
      rw [hf] at h
      simp only [Option.some.injEq] at h
      subst h
      simp
    | some q =>
      obtain ⟨input, rest⟩ := q
      rw [hf] at h
      simp only [] at h
      split at h
      · simp only [Option.some.injEq] at h
        subst h
        simp
      · have hlen : input.length < MAX_INPUT := by
          have := fgets_length hf
          have e : MAX_INPUT - 1 < MAX_INPUT := by decide
          omega
        cases hp : parse_and_execute (os i) env input with
        | none => rw [hp] at h; simp at h
        | some o1 =>
          rw [hp] at h
          simp only [] at h
          cases hm : main_loop os fuel (i + 1) o1.env rest with
          | none => rw [hm] at h; simp at h
          | some o2 =>
            rw [hm] at h
            simp only [Option.map_some', Option.some.injEq] at h
            subst h
            intro e he
            simp only [List.mem_cons, List.mem_append] at he
            rcases he with (h1 | h1) | h1
            · rw [h1]; simp
            · exact line_quiet (os i) env hlen hp e h1
            · exact ih (i + 1) o1.env rest o2 hm e h1

theorem main_loop_fuel (os : Nat → OS) : ∀ (n m i : Nat) (env : Env) (stdin : CStr),
    stdin.length < n → stdin.length < m →
    main_loop os n i env stdin = main_loop os m i env stdin := by
  intro n
  induction n with
  | zero => intro m i env stdin h; omega
  | succ n ih =>
    intro m i env stdin hn hm
    cases m with
    | zero => omega
    | succ m =>
      simp only [main_loop]
      cases hf : fgets MAX_INPUT stdin with
      | none => rfl
      | some q =>
        obtain ⟨input, rest⟩ := q
        have hr := fgets_rest hf
        simp only []
        split
        · rfl
        · cases parse_and_execute (os i) env input with
          | none => rfl
          | some o1 =>
            simp only []
            rw [ih m (i + 1) o1.env rest (by omega) (by omega)]

/-! ## The length check of `handle_echo`: C20 -/

/-- C20. A line read by `fgets` in `main` has at most 1023 characters, so
every token of its token list is shorter than 1024 characters, and no session
ever writes `Error: argument too long`; the session result does not depend on
the number of loop iterations allowed beyond the length of the input. -/
theorem C20_argument_too_long_unreachable (os : Nat → OS) (env : Env) (stdin : CStr) :
    (∀ line rest, fgets MAX_INPUT stdin = some (line, rest) →
      line.length ≤ 1023
      ∧ ∀ (o : OS) bg i fo toks evs, parse o line = Parsed.command bg i fo toks evs →
          ∀ t ∈ toks, t.length < MAX_INPUT)
    ∧ (∀ out, main os env stdin = some out → Event.stderr argument_too_long ∉ out.events)
    ∧ (∀ fuel, stdin.length < fuel → main_loop os fuel 0 env stdin = main os env stdin) := by
  refine ⟨?_, ?_, ?_⟩
  · intro line rest hf
    have hl := fgets_length hf
    have e : MAX_INPUT - 1 = 1023 := by decide
    rw [e] at hl
    refine ⟨hl, ?_⟩
    intro o bg i fo toks evs hp t ht
    have := parse_token_length hp t ht
    have e2 : MAX_INPUT = 1024 := rfl
    omega
  · intro out h hm
    exact main_loop_quiet os _ 0 env stdin out h _ hm rfl
  · intro fuel hfuel
    exact main_loop_fuel os fuel (stdin.length + 1) 0 env stdin hfuel (by omega)

theorem C20_argument_too_long_unreachable_witness :
    (main (fun _ => easy_os) [] "echo hi there\nexit\n".toList).map (fun o => o.events)
      = some [Event.stdout prompt, Event.stdout "hi".toList, Event.stdout [' '],
          Event.stdout "there".toList, Event.stdout ['\n'], Event.stdout prompt]
    ∧ ∀ out, main (fun _ => easy_os) [] "echo hi there\nexit\n".toList = some out →
        Event.stderr argument_too_long ∉ out.events :=
  ⟨by decide,
    (C20_argument_too_long_unreachable (fun _ => easy_os) [] "echo hi there\nexit\n".toList).2.1⟩

/-! ## Lemmas on descriptors and files -/

theorem run_append (child : CStr → List CStr → CStr) (w : World) (a b : List Event) :
    w.run child (a ++ b) = (w.run child a).run child b := by
  simp [World.run, List.foldl_append]

theorem run_cons (child : CStr → List CStr → CStr) (w : World) (e : Event)
    (rest : List Event) :
    w.run child (e :: rest) = (World.apply child w e).run child rest := rfl

theorem run_plain (child : CStr → List CStr → CStr) : ∀ (evs : List Event) (w : World),
    (∀ e ∈ evs, e.is_plain = true) → w.fds 1 = Stream.std 1 →
    (w.run child evs).fds = w.fds ∧ (w.run child evs).files = w.files
      ∧ (w.run child evs).console = w.console ++ stdout_text evs := by
  intro evs
  induction evs with
  | nil => intro w _ _; simp [World.run, stdout_text]
  | cons e rest ih =>
    intro w hp h1
    have he : e.is_plain = true := hp e (by simp)
    have hr : ∀ x ∈ rest, x.is_plain = true := fun x hx => hp x (by simp [hx])
    rw [run_cons]
    cases e with
    | stdout text =>
      have hw : World.apply child w (Event.stdout text)
          = { w with console := w.console ++ text } := by
        simp [World.apply, World.write, h1]
      rw [hw]
      obtain ⟨i1, i2, i3⟩ := ih { w with console := w.console ++ text } hr h1
      refine ⟨i1, i2, ?_⟩
      rw [i3]
      simp [stdout_text]
    | stderr text => exact ih w hr h1
    | perror tag => exact ih w hr h1
    | chdir dir ret => exact ih w hr h1
    | putenv name value => exact ih w hr h1
    | open_read name fd => simp [Event.is_plain] at he
    | open_write name fd => simp [Event.is_plain] at he
    | dup2 fd target => simp [Event.is_plain] at he
    | close fd => simp [Event.is_plain] at he
    | spawn mode prog argv pid => simp [Event.is_plain] at he

theorem parse_output_only (os : OS) {line cmd_text file_text f r : CStr}
    (hline : line = cmd_text ++ '>' :: file_text) (hamp : '&' ∉ line) (hlt : '<' ∉ line)
    (hgt : '>' ∉ cmd_text) (hfile : strtok file_text = some (f, r))
    (hopen : os.open_write f ≠ -1) :
    parse os line
      = Parsed.command false STDIN_FILENO (os.open_write f) (tokenize cmd_text)
          [Event.open_write f (os.open_write f)] := by
  have hs : strchr line '>' = some (cmd_text, file_text) := by
    rw [hline]; exact strchr_append hgt file_text
  unfold parse
  rw [cut_background_no_amp hamp]
  simp only [redirect_input_none os hlt]
  simp [redirect_output, hs, hfile, hopen]

theorem echo_long_argument (env : Env) (cmd a : CStr) (h : MAX_INPUT ≤ a.length) :
    handle_echo env [cmd, a] = some [Event.stderr argument_too_long, Event.stdout ['\n']] := by
  have hn : ¬ a.length < MAX_INPUT := by omega
  simp only [handle_echo, List.drop_succ_cons, List.drop_zero, echo_loop, hn, if_false,
    Nat.lt_irrefl, List.nil_append, Option.map_some']
  rfl

/-! ## Output redirection: C15 -/

/-- C15 (code defect). For a built-in the output file is opened and truncated
but never written: after `echo hi > out` the file `out` is empty and `hi` has
gone to the interpreter's own standard output. The external path does
redirect: after `ls > out` the file holds what `ls` wrote. -/
theorem C15_builtin_output_not_redirected :
    (parse_and_execute easy_os [] "echo hi > out".toList).map
        (fun o => ((initial_world (fun _ => none)).run (child_writes []) o.events).files
          "out".toList) = some (some [])
    ∧ (parse_and_execute easy_os [] "echo hi > out".toList).map
        (fun o => ((initial_world (fun _ => none)).run (child_writes []) o.events).console)
      = some "hi\n".toList
    ∧ (parse_and_execute easy_os [] "ls > out".toList).map
        (fun o => ((initial_world (fun _ => some "old".toList)).run
          (child_writes "f1\n".toList) o.events).files "out".toList)
      = some (some "f1\n".toList) := by
  decide

/-- Where the output of a line `cmd > f` without `&` and `<` goes when the
file opens: for an external program that starts (wait mode), `f` holds exactly
what the program wrote to its standard output, whatever `f` held before; for
a built-in, `f` is left empty and the output is written to the interpreter's
standard output. -/
theorem output_file_contents (os : OS) (env : Env) (child : CStr → List CStr → CStr)
    (w : World) (line cmd_text file_text f r t : CStr) (ts : List CStr)
    (hline : line = cmd_text ++ '>' :: file_text) (hamp : '&' ∉ line) (hlt : '<' ∉ line)
    (hgt : '>' ∉ cmd_text) (hfile : strtok file_text = some (f, r))
    (hopen : os.open_write f ≠ -1) (hfd : os.open_write f ≠ STDOUT_FILENO)
    (htok : tokenize cmd_text = t :: ts) (hfit : (t :: ts).length < MAX_ARGS) :
    (t ∉ builtin_names → os.spawnvp SpawnMode.P_WAIT t (t :: ts) ≠ -1 →
      ∃ out, parse_and_execute os env line = some out
        ∧ (w.run child out.events).files f = some (child t (t :: ts)))
    ∧ (t ∈ builtin_names → w.fds 1 = Stream.std 1 →
      ∀ out, parse_and_execute os env line = some out →
        (w.run child out.events).files f = some []
        ∧ (w.run child out.events).console = w.console ++ stdout_text out.events) := by
  have hp := parse_output_only os hline hamp hlt hgt hfile hopen
  rw [htok] at hp
  have hrun := parse_and_execute_command env hp hfit
  have hfd1 : ¬ (1 : Int) = os.open_write f := fun e => hfd (by rw [← e]; rfl)
  constructor
  · intro hext hspawn
    rw [dispatch_external os env ts false _ _ hext] at hrun
    refine ⟨_, hrun, ?_⟩
    simp only [execute_command, close_redirections, STDIN_FILENO, STDOUT_FILENO, ne_eq,
      not_true_eq_false, if_false, List.nil_append, List.headD_cons, Bool.false_eq_true]
    have hfd2 : ¬ os.open_write f = 1 := hfd
    simp only [hfd2, not_false_eq_true, if_true, hspawn, if_false, List.append_nil,
      List.cons_append, List.nil_append, List.singleton_append]
    simp [World.run, World.apply, World.set_fd, World.write, hopen, hfd1, hspawn]
  · intro hb hstd out hout
    rw [hrun] at hout
    cases hd : dispatch os env (t :: ts) false STDIN_FILENO (os.open_write f) with
    | none => rw [hd] at hout; simp at hout
    | some res =>
      rw [hd] at hout
      simp only [Option.map_some', Option.some.injEq] at hout
      subst hout
      have hplain := dispatch_builtin_plain os env ts false _ _ hb hd
      have hcl : close_redirections STDIN_FILENO (os.open_write f)
          = [Event.close (os.open_write f)] := by
        simp [close_redirections, hfd]
      simp only [hcl]
      have e1 : w.run child ([Event.open_write f (os.open_write f)] ++ res.2
            ++ [Event.close (os.open_write f)])
          = World.apply child
              ((World.apply child w (Event.open_write f (os.open_write f))).run child res.2)
              (Event.close (os.open_write f)) := by
        simp [World.run, List.foldl_append]
      have hf1 : (World.apply child w (Event.open_write f (os.open_write f))).fds 1
          = Stream.std 1 := by
        simp [World.apply, World.set_fd, hopen, hfd1, hstd]
      have hf2 : (World.apply child w (Event.open_write f (os.open_write f))).files f
          = some [] := by
        simp [World.apply, World.set_fd, hopen]
      have hf3 : (World.apply child w (Event.open_write f (os.open_write f))).console
          = w.console := by
        simp [World.apply, World.set_fd, hopen]
      obtain ⟨_, p2, p3⟩ := run_plain child res.2
        (World.apply child w (Event.open_write f (os.open_write f))) hplain hf1
      rw [e1]
      constructor
      · show ((World.apply child w (Event.open_write f (os.open_write f))).run child
            res.2).files f = some []
        rw [p2, hf2]
      · show ((World.apply child w (Event.open_write f (os.open_write f))).run child
            res.2).console = _
        rw [p3, hf3]
        simp [stdout_text_append, stdout_text]

theorem output_file_contents_witness :
    (∃ out, parse_and_execute easy_os [] "ls -l > out".toList = some out
      ∧ ((initial_world (fun _ => some "old".toList)).run (child_writes "f1\nf2\n".toList)
          out.events).files "out".toList
        = some (child_writes "f1\nf2\n".toList "ls".toList ["ls".toList, "-l".toList])) :=
  (output_file_contents easy_os [] (child_writes "f1\nf2\n".toList)
    (initial_world (fun _ => some "old".toList)) "ls -l > out".toList "ls -l ".toList
    " out".toList "out".toList [] "ls".toList ["-l".toList] (by decide) (by decide) (by decide)
    (by decide) (by decide) (by decide) (by decide) (by decide) (by decide)).1
    (by decide) (by decide)

end Xsh
